import Mathlib

/-!
Verification of the interleaved forward fixpoint iterator of
`core/include/ikos/core/fixpoint/fwd_fixpoint_iterator.hpp`.

The iterator is parameterized over a CFG, an abstract-value lattice and a set
of client callbacks (transfer functions and widening/narrowing hooks).  We
embed it shallowly:

* CFG nodes are natural numbers; a `Graph` carries the entry node and the
  predecessor map (the graph trait used by the driver).
* The two invariant tables are modelled at two levels: an association-list
  model (`Table`) mirroring the `std::unordered_map` with its lazy bottom
  insertion in `get`, and the "logical content" level (`State`), a pair of
  total maps defaulting to bottom, which is what the driver semantically
  manipulates.  The bridge between the two is proved (observational purity of
  the reads).
* The WTO is a collaborator (`wto.hpp` is outside the analyzed source); its
  component tree and the nesting function are inputs, and the nesting
  comparison is modelled from the spec.
* The unbounded cycle fixpoint loop is made total with explicit fuel: the
  driver is a step machine `go` structurally recursive on fuel, returning
  `none` when fuel runs out.  All statements quantify over fuel.
-/

namespace IkosFixpoint

/-- Logical content of the two invariant tables: total maps from node to
abstract value (absent entries read as bottom). -/
structure State (V : Type) where
  pre : Nat → V
  post : Nat → V

/-- Pointwise overwrite of a table content, the effect of `set`. -/
def upd {V : Type} (f : Nat → V) (n : Nat) (v : V) : Nat → V :=
  fun m => if m = n then v else f m

/-- The graph trait as consumed by the driver: entry node and predecessors. -/
structure Graph where
  entry : Nat
  preds : Nat → List Nat

/-- A WTO component: either a single vertex or a cycle with a head and a body
in WTO order (the head is not part of the body list). -/
inductive WtoComponent : Type where
  | vertex (node : Nat)
  | cycle (head : Nat) (body : List WtoComponent)
deriving Repr

/-- The WTO collaborator: root component list and the nesting of each node. -/
structure WtoData where
  components : List WtoComponent
  nesting : Nat → List Nat

/-- Modelled from the spec: `wto.hpp` (the WTO builder and `WtoNesting`) is not
part of the analyzed source.  `strictPrefixOf a b` decides whether `a` is a
strict prefix of `b`; per the spec, nesting comparison `a > b` means `b` is a
strict prefix of `a`. -/
def strictPrefixOf : List Nat → List Nat → Bool
  | [], [] => false
  | [], _ :: _ => true
  | _ :: _, [] => false
  | a :: as, b :: bs => a == b && strictPrefixOf as bs

/-- Modelled from the spec: the `WtoNesting` comparison `a > b` holds iff `b`
is a strict prefix of `a` (strictly more deeply nested). -/
def nestingGt (a b : List Nat) : Bool :=
  strictPrefixOf b a

/-- The client bundle: abstract domain operations
(`bot`, `leq`, the in-place join/widen/narrow family) together with the
analyzer callbacks (`analyze_node`, `analyze_edge`) and the four overridable
hooks of `InterleavedFwdFixpointIterator` (virtual methods; their default
bodies are `defaultExtrapolate` etc. below). -/
structure Client (V : Type) where
  bot : V
  leq : V → V → Bool
  join_with : V → V → V
  join_loop_with : V → V → V
  join_iter_with : V → V → V
  widen_with : V → V → V
  narrow_with : V → V → V
  analyze_node : Nat → V → V
  analyze_edge : Nat → Nat → V → V
  extrapolate : Nat → Nat → V → V → V
  is_increasing_iterations_fixpoint : V → V → Bool
  refine : Nat → Nat → V → V → V
  is_decreasing_iterations_fixpoint : V → V → Bool

variable {V : Type}

/-- Default body of `extrapolate`: join on the first iteration
(`join_iter_with`), widening afterwards. -/
def defaultExtrapolate (c : Client V) (head iteration : Nat) (before after : V) : V :=
  if iteration ≤ 1 then c.join_iter_with before after else c.widen_with before after

/-- Default body of `is_increasing_iterations_fixpoint`: `after.leq(before)`. -/
def defaultIsIncreasingFixpoint (c : Client V) (before after : V) : Bool :=
  c.leq after before

/-- Default body of `refine`: narrowing. -/
def defaultRefine (c : Client V) (head iteration : Nat) (before after : V) : V :=
  c.narrow_with before after

/-- Default body of `is_decreasing_iterations_fixpoint`: `before.leq(after)`. -/
def defaultIsDecreasingFixpoint (c : Client V) (before after : V) : Bool :=
  c.leq before after

/-- `WtoIterator::visit(const WtoVertexT&)`: start from bottom, or from the
stored pre at the entry node; join the abstracted incoming edges; store the
pre and the post `analyze_node(node, pre)`. -/
def visitVertex (c : Client V) (g : Graph) (node : Nat) (s : State V) : State V :=
  let pre0 : V := if node = g.entry then s.pre node else c.bot
  let pre : V := (g.preds node).foldl
    (fun acc pred => c.join_with acc (c.analyze_edge pred node (s.post pred))) pre0
  { pre := upd s.pre node pre, post := upd s.post node (c.analyze_node node pre) }

/-- Join, starting from bottom, of `analyze_edge(pred, head, post(pred))` over
the predecessors of `head` whose nesting is not strictly greater than the
head's (the incoming predecessors). -/
def joinIncoming (c : Client V) (g : Graph) (w : WtoData) (head : Nat) (s : State V) : V :=
  (g.preds head).foldl
    (fun acc pred =>
      if nestingGt (w.nesting pred) (w.nesting head) then acc
      else c.join_with acc (c.analyze_edge pred head (s.post pred)))
    c.bot

/-- Join, starting from bottom, of `analyze_edge(pred, head, post(pred))` over
the predecessors of `head` whose nesting is strictly greater than the head's
(the back-edge predecessors). -/
def joinBack (c : Client V) (g : Graph) (w : WtoData) (head : Nat) (s : State V) : V :=
  (g.preds head).foldl
    (fun acc pred =>
      if nestingGt (w.nesting pred) (w.nesting head) then
        c.join_with acc (c.analyze_edge pred head (s.post pred))
      else acc)
    c.bot

/-- Top of each pass of the cycle loop:
`set_pre(head, pre); set_post(head, analyze_node(head, pre))`. -/
def headStep (c : Client V) (head : Nat) (pre : V) (s : State V) : State V :=
  { pre := upd s.pre head pre, post := upd s.post head (c.analyze_node head pre) }

/-- `set_pre(head, v)` alone (the final write of the decreasing phase). -/
def setPre (s : State V) (head : Nat) (v : V) : State V :=
  { s with pre := upd s.pre head v }

/-- Phase of the cycle fixpoint loop (`IterationKind` in the source). -/
inductive IterationKind : Type where
  | increasing
  | decreasing
deriving DecidableEq, Repr

/-- Work items of the iteration driver: visiting one component, visiting a
list of components in WTO order, one pass of a cycle's fixpoint loop, and the
decreasing-iteration tail of a pass. -/
inductive Frame (V : Type) : Type where
  | comp (comp : WtoComponent) (s : State V)
  | comps (cs : List WtoComponent) (s : State V)
  | loop (head : Nat) (body : List WtoComponent) (kind : IterationKind)
      (iteration : Nat) (pre : V) (s : State V)
  | dec (head : Nat) (body : List WtoComponent) (iteration : Nat)
      (pre newPre : V) (s : State V)

/-- The iteration driver (`WtoIterator`), as a fuel-indexed step machine.
Each constructor of `Frame` is one of the mutually recursive activities of the
source visitor; fuel decreases at every step so the unbounded cycle loop
returns `none` when it does not converge within the given fuel.

`loop` is one pass of the `for (unsigned iteration = 1;; ++iteration)` loop of
`WtoIterator::visit(const WtoCycleT&)`: store pre/post of the head, visit the
body, recompute the incoming and back-edge joins from the updated posts, apply
`join_loop_with`, then either extrapolate and iterate (increasing phase, no
fixpoint), or fall through to the decreasing code (`dec`) in the same pass,
with the iteration counter reset to 1 on the phase change. -/
def go (c : Client V) (g : Graph) (w : WtoData) : Nat → Frame V → Option (State V)
  | 0, _ => none
  | Nat.succ fuel, Frame.comp (WtoComponent.vertex n) s =>
      let _ := fuel
      some (visitVertex c g n s)
  | Nat.succ fuel, Frame.comp (WtoComponent.cycle h body) s =>
      go c g w fuel (Frame.loop h body IterationKind.increasing 1 (joinIncoming c g w h s) s)
  | Nat.succ _fuel, Frame.comps [] s => some s
  | Nat.succ fuel, Frame.comps (comp :: rest) s =>
      match go c g w fuel (Frame.comp comp s) with
      | none => none
      | some s' => go c g w fuel (Frame.comps rest s')
  | Nat.succ fuel, Frame.loop h body kind iteration pre s =>
      match go c g w fuel (Frame.comps body (headStep c h pre s)) with
      | none => none
      | some s2 =>
          let newPre := c.join_loop_with (joinIncoming c g w h s2) (joinBack c g w h s2)
          match kind with
          | IterationKind.increasing =>
              if c.is_increasing_iterations_fixpoint pre newPre then
                go c g w fuel (Frame.dec h body 1 pre newPre s2)
              else
                go c g w fuel (Frame.loop h body IterationKind.increasing (iteration + 1)
                  (c.extrapolate h iteration pre newPre) s2)
          | IterationKind.decreasing =>
              go c g w fuel (Frame.dec h body iteration pre newPre s2)
  | Nat.succ fuel, Frame.dec h body iteration pre newPre s =>
      let newPre' := c.refine h iteration pre newPre
      if c.is_decreasing_iterations_fixpoint pre newPre' then
        some (setPre s h newPre')
      else
        go c g w fuel (Frame.loop h body IterationKind.decreasing (iteration + 1) newPre' s)

/-- Visit of a single WTO component. -/
def visitComponent (c : Client V) (g : Graph) (w : WtoData) (fuel : Nat)
    (comp : WtoComponent) (s : State V) : Option (State V) :=
  go c g w fuel (Frame.comp comp s)

/-- Visit of a list of WTO components in order (`_wto.accept(iterator)`). -/
def visitComponents (c : Client V) (g : Graph) (w : WtoData) (fuel : Nat)
    (cs : List WtoComponent) (s : State V) : Option (State V) :=
  go c g w fuel (Frame.comps cs s)

/-- The cycle fixpoint loop entered with a given phase, iteration counter and
candidate pre. -/
def cycleLoop (c : Client V) (g : Graph) (w : WtoData) (fuel : Nat) (head : Nat)
    (body : List WtoComponent) (kind : IterationKind) (iteration : Nat)
    (pre : V) (s : State V) : Option (State V) :=
  go c g w fuel (Frame.loop head body kind iteration pre s)

/-- Events delivered to the client by the post-processor (`WtoProcessor`). -/
inductive ProcessEvent (V : Type) : Type where
  | processPre (node : Nat) (value : V)
  | processPost (node : Nat) (value : V)
deriving DecidableEq

mutual

/-- `WtoProcessor::visit`: a vertex emits `process_pre` then `process_post`;
a cycle emits them for the head and then visits the body in WTO order. -/
def processComponent (s : State V) : WtoComponent → List (ProcessEvent V)
  | WtoComponent.vertex n =>
      [ProcessEvent.processPre n (s.pre n), ProcessEvent.processPost n (s.post n)]
  | WtoComponent.cycle h body =>
      ProcessEvent.processPre h (s.pre h) :: ProcessEvent.processPost h (s.post h)
        :: processList s body

/-- The post-processor pass over a component list, in order. -/
def processList (s : State V) : List WtoComponent → List (ProcessEvent V)
  | [] => []
  | comp :: rest => processComponent s comp ++ processList s rest

end

/-- `InterleavedFwdFixpointIterator::run`: seed `pre(entry) := init` in empty
tables, run the iteration driver over the WTO, then run the post-processor;
returns the final tables and the emitted event sequence. -/
def run (c : Client V) (g : Graph) (w : WtoData) (fuel : Nat) (init : V) :
    Option (State V × List (ProcessEvent V)) :=
  let s0 : State V := { pre := fun _ => c.bot, post := fun _ => c.bot }
  match visitComponents c g w fuel w.components (setPre s0 g.entry init) with
  | none => none
  | some s => some (s, processList s w.components)

end IkosFixpoint

namespace IkosFixpoint

variable {V : Type}

/-- Unfolding: out of fuel. -/
theorem go_zero (c : Client V) (g : Graph) (w : WtoData) (fr : Frame V) :
    go c g w 0 fr = none := rfl

/-- Unfolding: visiting a vertex. -/
theorem go_vertex (c : Client V) (g : Graph) (w : WtoData) (fuel : Nat) (n : Nat) (s : State V) :
    go c g w (fuel + 1) (Frame.comp (WtoComponent.vertex n) s) = some (visitVertex c g n s) := rfl

/-- Unfolding: visiting a cycle enters the loop in the increasing phase, at
iteration 1, seeded from the incoming predecessors only. -/
theorem go_cycle (c : Client V) (g : Graph) (w : WtoData) (fuel : Nat) (h : Nat)
    (body : List WtoComponent) (s : State V) :
    go c g w (fuel + 1) (Frame.comp (WtoComponent.cycle h body) s) =
      go c g w fuel (Frame.loop h body IterationKind.increasing 1 (joinIncoming c g w h s) s) := rfl

/-- Unfolding: empty component list. -/
theorem go_nil (c : Client V) (g : Graph) (w : WtoData) (fuel : Nat) (s : State V) :
    go c g w (fuel + 1) (Frame.comps [] s) = some s := rfl

/-- Unfolding: component list. -/
theorem go_cons (c : Client V) (g : Graph) (w : WtoData) (fuel : Nat) (comp : WtoComponent)
    (rest : List WtoComponent) (s : State V) :
    go c g w (fuel + 1) (Frame.comps (comp :: rest) s) =
      match go c g w fuel (Frame.comp comp s) with
      | none => none
      | some s' => go c g w fuel (Frame.comps rest s') := rfl

/-- Unfolding: one pass of the cycle loop. -/
theorem go_loop (c : Client V) (g : Graph) (w : WtoData) (fuel : Nat) (h : Nat)
    (body : List WtoComponent) (kind : IterationKind) (iteration : Nat) (pre : V) (s : State V) :
    go c g w (fuel + 1) (Frame.loop h body kind iteration pre s) =
      match go c g w fuel (Frame.comps body (headStep c h pre s)) with
      | none => none
      | some s2 =>
          let newPre := c.join_loop_with (joinIncoming c g w h s2) (joinBack c g w h s2)
          match kind with
          | IterationKind.increasing =>
              if c.is_increasing_iterations_fixpoint pre newPre then
                go c g w fuel (Frame.dec h body 1 pre newPre s2)
              else
                go c g w fuel (Frame.loop h body IterationKind.increasing (iteration + 1)
                  (c.extrapolate h iteration pre newPre) s2)
          | IterationKind.decreasing =>
              go c g w fuel (Frame.dec h body iteration pre newPre s2) := rfl

/-- Unfolding: the decreasing-iteration tail of a pass. -/
theorem go_dec (c : Client V) (g : Graph) (w : WtoData) (fuel : Nat) (h : Nat)
    (body : List WtoComponent) (iteration : Nat) (pre newPre : V) (s : State V) :
    go c g w (fuel + 1) (Frame.dec h body iteration pre newPre s) =
      (let newPre' := c.refine h iteration pre newPre
       if c.is_decreasing_iterations_fixpoint pre newPre' then
         some (setPre s h newPre')
       else
         go c g w fuel (Frame.loop h body IterationKind.decreasing (iteration + 1) newPre' s)) := rfl

/-- More fuel never changes a successful outcome. -/
theorem go_mono (c : Client V) (g : Graph) (w : WtoData) :
    ∀ fuel (fr : Frame V) s', go c g w fuel fr = some s' →
      go c g w (fuel + 1) fr = some s' := by
  intro fuel
  induction fuel with
  | zero => intro fr s' hyp; simp [go] at hyp
  | succ n ih =>
    intro fr s' hyp
    match fr with
    | Frame.comp (WtoComponent.vertex m) s =>
      rw [go_vertex] at hyp; rw [go_vertex]; exact hyp
    | Frame.comp (WtoComponent.cycle h body) s =>
      rw [go_cycle] at hyp; rw [go_cycle]; exact ih _ _ hyp
    | Frame.comps [] s =>
      rw [go_nil] at hyp; rw [go_nil]; exact hyp
    | Frame.comps (comp :: rest) s =>
      rw [go_cons] at hyp; rw [go_cons]
      cases hfirst : go c g w n (Frame.comp comp s) with
      | none => rw [hfirst] at hyp; simp at hyp
      | some s1 =>
        rw [hfirst] at hyp
        rw [ih _ _ hfirst]
        simp only at hyp ⊢
        exact ih _ _ hyp
    | Frame.loop h body kind iteration pre s =>
      rw [go_loop] at hyp; rw [go_loop]
      cases hbody : go c g w n (Frame.comps body (headStep c h pre s)) with
      | none => rw [hbody] at hyp; simp at hyp
      | some s2 =>
        rw [hbody] at hyp
        rw [ih _ _ hbody]
        simp only at hyp ⊢
        cases kind with
        | increasing =>
          by_cases hfix : c.is_increasing_iterations_fixpoint pre
              (c.join_loop_with (joinIncoming c g w h s2) (joinBack c g w h s2)) = true
          · rw [if_pos hfix] at hyp; rw [if_pos hfix]; exact ih _ _ hyp
          · rw [if_neg hfix] at hyp; rw [if_neg hfix]; exact ih _ _ hyp
        | decreasing => exact ih _ _ hyp
    | Frame.dec h body iteration pre newPre s =>
      rw [go_dec] at hyp; rw [go_dec]
      by_cases hfix : c.is_decreasing_iterations_fixpoint pre (c.refine h iteration pre newPre) = true
      · simp only [hfix, if_true] at hyp ⊢; exact hyp
      · simp only [hfix, if_false, Bool.false_eq_true] at hyp ⊢; exact ih _ _ hyp

/-- More fuel never changes a successful outcome (≤ version). -/
theorem go_mono_le (c : Client V) (g : Graph) (w : WtoData) {fuel fuel' : Nat}
    (hle : fuel ≤ fuel') (fr : Frame V) (s' : State V) (hyp : go c g w fuel fr = some s') :
    go c g w fuel' fr = some s' := by
  induction hle with
  | refl => exact hyp
  | step _ ih => exact go_mono c g w _ _ _ ih

/-- Two successful runs of the same frame agree, whatever the fuels. -/
theorem go_some_eq (c : Client V) (g : Graph) (w : WtoData) {fuel fuel' : Nat} {fr : Frame V}
    {s1 s2 : State V} (h1 : go c g w fuel fr = some s1) (h2 : go c g w fuel' fr = some s2) :
    s1 = s2 := by
  rcases Nat.le_total fuel fuel' with hle | hle
  · have := go_mono_le c g w hle fr s1 h1
    rw [this] at h2; exact Option.some.inj h2
  · have := go_mono_le c g w hle fr s2 h2
    rw [this] at h1; exact (Option.some.inj h1).symm

end IkosFixpoint

namespace IkosFixpoint

variable {V : Type}

mutual

/-- All nodes occurring in a component (head and body for a cycle). -/
def compNodes : WtoComponent → List Nat
  | WtoComponent.vertex n => [n]
  | WtoComponent.cycle h body => h :: listNodes body

/-- All nodes occurring in a component list. -/
def listNodes : List WtoComponent → List Nat
  | [] => []
  | comp :: rest => compNodes comp ++ listNodes rest

end

mutual

/-- The nodes occurring as plain vertices (not cycle heads) in a component. -/
def vertexNodes : WtoComponent → List Nat
  | WtoComponent.vertex n => [n]
  | WtoComponent.cycle _ body => vertexNodesList body

/-- The nodes occurring as plain vertices in a component list. -/
def vertexNodesList : List WtoComponent → List Nat
  | [] => []
  | comp :: rest => vertexNodes comp ++ vertexNodesList rest

end

/-- The table entries a frame's execution may write. -/
def Frame.writes : Frame V → List Nat
  | Frame.comp cp _ => compNodes cp
  | Frame.comps cs _ => listNodes cs
  | Frame.loop h body _ _ _ _ => h :: listNodes body
  | Frame.dec h body _ _ _ _ => h :: listNodes body

/-- The state a frame starts from. -/
def Frame.state : Frame V → State V
  | Frame.comp _ s => s
  | Frame.comps _ s => s
  | Frame.loop _ _ _ _ _ s => s
  | Frame.dec _ _ _ _ _ s => s

/-- Non-interference: executing a frame leaves every table entry outside its
node set unchanged. -/
theorem go_frame (c : Client V) (g : Graph) (w : WtoData) :
    ∀ fuel (fr : Frame V) s', go c g w fuel fr = some s' →
      ∀ m, m ∉ fr.writes → s'.pre m = fr.state.pre m ∧ s'.post m = fr.state.post m := by
  intro fuel
  induction fuel with
  | zero => intro fr s' hyp; simp [go] at hyp
  | succ n ih =>
    intro fr s' hyp m hm
    match fr with
    | Frame.comp (WtoComponent.vertex k) s =>
      rw [go_vertex] at hyp
      have hmk : m ≠ k := by
        simp [Frame.writes, compNodes] at hm; exact hm
      cases hyp
      constructor <;> simp [visitVertex, Frame.state, upd, hmk]
    | Frame.comp (WtoComponent.cycle h body) s =>
      rw [go_cycle] at hyp
      have := ih _ _ hyp m (by
        simp only [Frame.writes, compNodes] at hm ⊢; exact hm)
      exact this
    | Frame.comps [] s =>
      rw [go_nil] at hyp; cases hyp; exact ⟨rfl, rfl⟩
    | Frame.comps (comp :: rest) s =>
      rw [go_cons] at hyp
      cases hfirst : go c g w n (Frame.comp comp s) with
      | none => rw [hfirst] at hyp; simp at hyp
      | some s1 =>
        rw [hfirst] at hyp; simp only at hyp
        have hm1 : m ∉ compNodes comp ∧ m ∉ listNodes rest := by
          simp [Frame.writes, listNodes] at hm; exact hm
        have h1 := ih _ _ hfirst m (by simpa [Frame.writes] using hm1.1)
        have h2 := ih _ _ hyp m (by simpa [Frame.writes] using hm1.2)
        simp [Frame.state] at h1 h2 ⊢
        exact ⟨h2.1.trans h1.1, h2.2.trans h1.2⟩
    | Frame.loop h body kind iteration pre s =>
      rw [go_loop] at hyp
      cases hbody : go c g w n (Frame.comps body (headStep c h pre s)) with
      | none => rw [hbody] at hyp; simp at hyp
      | some s2 =>
        rw [hbody] at hyp; simp only at hyp
        have hmh : m ≠ h ∧ m ∉ listNodes body := by
          simp [Frame.writes] at hm; exact hm
        have hbodyeq := ih _ _ hbody m (by simp [Frame.writes]; exact hmh.2)
        simp only [Frame.state] at hbodyeq
        have hs2 : s2.pre m = s.pre m ∧ s2.post m = s.post m := by
          rw [hbodyeq.1, hbodyeq.2]
          constructor <;> simp [headStep, upd, hmh.1]
        have hrest : ∀ fr' : Frame V, go c g w n fr' = some s' →
            fr'.writes = h :: listNodes body → fr'.state = s2 →
            s'.pre m = s.pre m ∧ s'.post m = s.post m := by
          intro fr' hgo hw hs
          have := ih _ _ hgo m (by rw [hw]; simp [Frame.writes] at hm ⊢; exact hm)
          rw [hs] at this
          exact ⟨this.1.trans hs2.1, this.2.trans hs2.2⟩
        cases kind with
        | increasing =>
          by_cases hfix : c.is_increasing_iterations_fixpoint pre
              (c.join_loop_with (joinIncoming c g w h s2) (joinBack c g w h s2)) = true
          · rw [if_pos hfix] at hyp
            exact hrest _ hyp rfl rfl
          · rw [if_neg hfix] at hyp
            exact hrest _ hyp rfl rfl
        | decreasing => exact hrest _ hyp rfl rfl
    | Frame.dec h body iteration pre newPre s =>
      rw [go_dec] at hyp
      have hmh : m ≠ h ∧ m ∉ listNodes body := by
        simp [Frame.writes] at hm; exact hm
      by_cases hfix : c.is_decreasing_iterations_fixpoint pre (c.refine h iteration pre newPre) = true
      · simp only [hfix, if_true] at hyp
        cases hyp
        constructor <;> simp [setPre, Frame.state, upd, hmh.1]
      · simp only [hfix, Bool.false_eq_true, if_false] at hyp
        have := ih _ _ hyp m (by simp [Frame.writes]; exact hmh)
        exact this

end IkosFixpoint

namespace IkosFixpoint

variable {V : Type}

/-- Spec-side formulation of the vertex pre computation (§4.3 Vertex, steps
1 and 2): start from the caller-seeded value at the entry and bottom
elsewhere, then join the abstracted values of all incoming edges. -/
def specVertexPre (c : Client V) (g : Graph) (node : Nat) (s : State V) : V :=
  ((g.preds node).map (fun p => c.analyze_edge p node (s.post p))).foldl
    c.join_with (if node = g.entry then s.pre node else c.bot)

/-- Spec-side classification (§4.3 Cycle): the incoming predecessors of a
head are those whose nesting is not strictly greater than the head's. -/
def incomingPreds (g : Graph) (w : WtoData) (head : Nat) : List Nat :=
  (g.preds head).filter (fun p => !(nestingGt (w.nesting p) (w.nesting head)))

/-- Spec-side classification (§4.3 Cycle): the back-edge predecessors of a
head are those whose nesting is strictly greater than the head's. -/
def backPreds (g : Graph) (w : WtoData) (head : Nat) : List Nat :=
  (g.preds head).filter (fun p => nestingGt (w.nesting p) (w.nesting head))

/-- Spec-side join over the incoming predecessors, starting from bottom. -/
def specIncomingJoin (c : Client V) (g : Graph) (w : WtoData) (head : Nat) (s : State V) : V :=
  ((incomingPreds g w head).map (fun p => c.analyze_edge p head (s.post p))).foldl
    c.join_with c.bot

/-- Spec-side join over the back-edge predecessors, starting from bottom. -/
def specBackJoin (c : Client V) (g : Graph) (w : WtoData) (head : Nat) (s : State V) : V :=
  ((backPreds g w head).map (fun p => c.analyze_edge p head (s.post p))).foldl
    c.join_with c.bot

theorem foldl_skip_eq_filter (q : Nat → Bool) (step : V → Nat → V) :
    ∀ (ps : List Nat) (a : V),
      ps.foldl (fun acc p => if q p then acc else step acc p) a =
        (ps.filter (fun p => !(q p))).foldl step a := by
  intro ps
  induction ps with
  | nil => intro a; rfl
  | cons p rest ih =>
    intro a
    by_cases hp : q p = true
    · simp [List.filter, hp, ih]
    · simp [List.filter, hp, ih]

theorem foldl_keep_eq_filter (q : Nat → Bool) (step : V → Nat → V) :
    ∀ (ps : List Nat) (a : V),
      ps.foldl (fun acc p => if q p then step acc p else acc) a =
        (ps.filter q).foldl step a := by
  intro ps
  induction ps with
  | nil => intro a; rfl
  | cons p rest ih =>
    intro a
    by_cases hp : q p = true
    · simp [List.filter, hp, ih]
    · simp [List.filter, hp, ih]

theorem joinIncoming_eq_spec (c : Client V) (g : Graph) (w : WtoData) (head : Nat)
    (s : State V) : joinIncoming c g w head s = specIncomingJoin c g w head s := by
  unfold joinIncoming specIncomingJoin incomingPreds
  rw [List.foldl_map]
  exact foldl_skip_eq_filter (fun p => nestingGt (w.nesting p) (w.nesting head))
    (fun acc p => c.join_with acc (c.analyze_edge p head (s.post p))) (g.preds head) c.bot

theorem joinBack_eq_spec (c : Client V) (g : Graph) (w : WtoData) (head : Nat)
    (s : State V) : joinBack c g w head s = specBackJoin c g w head s := by
  unfold joinBack specBackJoin backPreds
  rw [List.foldl_map]
  exact foldl_keep_eq_filter (fun p => nestingGt (w.nesting p) (w.nesting head))
    (fun acc p => c.join_with acc (c.analyze_edge p head (s.post p))) (g.preds head) c.bot

end IkosFixpoint

namespace IkosFixpoint

variable {V : Type}

/-- C6: when the driver visits a WTO vertex `n`, the stored pre is obtained by
starting from the stored pre of `n` if `n` is the entry (the caller-seeded
initial value) and from bottom otherwise, then joining
`edge(p, n, post(p))` over every predecessor `p` of `n`; the stored post is
`node(n, pre)` applied to that same pre. -/
theorem claim_C6_vertex_visit (c : Client V) (g : Graph) (w : WtoData) (fuel : Nat)
    (n : Nat) (s : State V) :
    go c g w (fuel + 1) (Frame.comp (WtoComponent.vertex n) s) =
      some { pre := upd s.pre n (specVertexPre c g n s),
             post := upd s.post n (c.analyze_node n (specVertexPre c g n s)) } := by
  rw [go_vertex]
  unfold visitVertex specVertexPre
  simp only [List.foldl_map]

/-- C3: visiting a cycle with head `h` classifies a predecessor `p` as
incoming iff `nesting(p)` is not strictly greater than `nesting(h)` and as
back-edge iff it is strictly greater, and enters the fixpoint loop in the
increasing phase at iteration 1 seeded with the join, from bottom, of
`edge(p, h, post(p))` over the incoming predecessors only. -/
theorem claim_C3_cycle_seed (c : Client V) (g : Graph) (w : WtoData) (fuel : Nat)
    (h : Nat) (body : List WtoComponent) (s : State V) :
    (go c g w (fuel + 1) (Frame.comp (WtoComponent.cycle h body) s) =
      go c g w fuel
        (Frame.loop h body IterationKind.increasing 1 (specIncomingJoin c g w h s) s))
    ∧ (∀ p, p ∈ incomingPreds g w h ↔
        p ∈ g.preds h ∧ ¬ nestingGt (w.nesting p) (w.nesting h) = true)
    ∧ (∀ p, p ∈ backPreds g w h ↔
        p ∈ g.preds h ∧ nestingGt (w.nesting p) (w.nesting h) = true) := by
  refine ⟨?_, ?_, ?_⟩
  · rw [go_cycle, joinIncoming_eq_spec]
  · intro p; simp [incomingPreds, List.mem_filter]
  · intro p; simp [backPreds, List.mem_filter]

/-- C4: in each pass of the cycle fixpoint loop, the incoming join `new_in`
and the back-edge join `new_back` are recomputed from the post values of the
state produced by the body visit of that same pass, and the candidate is
`join_loop(new_in, new_back)`. -/
theorem claim_C4_candidate_after_body (c : Client V) (g : Graph) (w : WtoData)
    (fuel : Nat) (h : Nat) (body : List WtoComponent) (kind : IterationKind)
    (iteration : Nat) (pre : V) (s : State V) :
    go c g w (fuel + 1) (Frame.loop h body kind iteration pre s) =
      match go c g w fuel (Frame.comps body (headStep c h pre s)) with
      | none => none
      | some s2 =>
          let new_in := specIncomingJoin c g w h s2
          let new_back := specBackJoin c g w h s2
          let new_pre := c.join_loop_with new_in new_back
          match kind with
          | IterationKind.increasing =>
              if c.is_increasing_iterations_fixpoint pre new_pre then
                go c g w fuel (Frame.dec h body 1 pre new_pre s2)
              else
                go c g w fuel (Frame.loop h body IterationKind.increasing (iteration + 1)
                  (c.extrapolate h iteration pre new_pre) s2)
          | IterationKind.decreasing =>
              go c g w fuel (Frame.dec h body iteration pre new_pre s2) := by
  rw [go_loop]
  cases go c g w fuel (Frame.comps body (headStep c h pre s)) with
  | none => rfl
  | some s2 => simp only [joinIncoming_eq_spec, joinBack_eq_spec]

end IkosFixpoint

namespace IkosFixpoint

variable {V : Type}

/-- Shape of any successful cycle-loop outcome: the final state comes from the
decreasing branch, i.e. it is the post-body state with the head's pre
overwritten by a `refine` result that passed the decreasing fixpoint test. -/
def RefinedShape (c : Client V) (h : Nat) (s' : State V) : Prop :=
  ∃ i p np sf, s' = setPre sf h (c.refine h i p np) ∧
    c.is_decreasing_iterations_fixpoint p (c.refine h i p np) = true

theorem term_shape_aux (c : Client V) (g : Graph) (w : WtoData) :
    ∀ fuel : Nat,
      (∀ h body kind iteration pre s s',
        go c g w fuel (Frame.loop h body kind iteration pre s) = some s' →
          RefinedShape c h s')
      ∧ (∀ h body iteration pre newPre s s',
        go c g w fuel (Frame.dec h body iteration pre newPre s) = some s' →
          RefinedShape c h s') := by
  intro fuel
  induction fuel with
  | zero =>
    constructor
    · intro h body kind iteration pre s s' hyp; simp [go] at hyp
    · intro h body iteration pre newPre s s' hyp; simp [go] at hyp
  | succ n ih =>
    constructor
    · intro h body kind iteration pre s s' hyp
      rw [go_loop] at hyp
      cases hbody : go c g w n (Frame.comps body (headStep c h pre s)) with
      | none => rw [hbody] at hyp; simp at hyp
      | some s2 =>
        rw [hbody] at hyp; simp only at hyp
        cases kind with
        | increasing =>
          by_cases hfix : c.is_increasing_iterations_fixpoint pre
              (c.join_loop_with (joinIncoming c g w h s2) (joinBack c g w h s2)) = true
          · rw [if_pos hfix] at hyp; exact ih.2 _ _ _ _ _ _ _ hyp
          · rw [if_neg hfix] at hyp; exact ih.1 _ _ _ _ _ _ _ hyp
        | decreasing => exact ih.2 _ _ _ _ _ _ _ hyp
    · intro h body iteration pre newPre s s' hyp
      rw [go_dec] at hyp
      by_cases hfix : c.is_decreasing_iterations_fixpoint pre
          (c.refine h iteration pre newPre) = true
      · simp only [hfix, if_true] at hyp
        cases hyp
        exact ⟨iteration, pre, newPre, s, rfl, hfix⟩
      · simp only [hfix, Bool.false_eq_true, if_false] at hyp
        exact ih.1 _ _ _ _ _ _ _ hyp

/-- C5: the cycle-head phase machine goes Increasing → Decreasing → Done.
First part: when the increasing fixpoint test succeeds on the candidate of a
pass, the driver falls through to the decreasing code in that very pass —
without re-visiting the body and without calling `extrapolate` — with the
iteration counter reset to 1 and `refine` about to be applied to that same
candidate.  Second part: a cycle visit can only return from the decreasing
phase, so the final pre of the head is a `refine` result that passed the
decreasing fixpoint test (in particular `refine` ran at least once). -/
theorem claim_C5_phase_machine (c : Client V) (g : Graph) (w : WtoData)
    (fuel : Nat) (h : Nat) (body : List WtoComponent) (iteration : Nat)
    (pre : V) (s s2 s' : State V) :
    (go c g w fuel (Frame.comps body (headStep c h pre s)) = some s2 →
      c.is_increasing_iterations_fixpoint pre
        (c.join_loop_with (joinIncoming c g w h s2) (joinBack c g w h s2)) = true →
      go c g w (fuel + 1) (Frame.loop h body IterationKind.increasing iteration pre s) =
        go c g w fuel (Frame.dec h body 1 pre
          (c.join_loop_with (joinIncoming c g w h s2) (joinBack c g w h s2)) s2))
    ∧ (go c g w fuel (Frame.comp (WtoComponent.cycle h body) s) = some s' →
        RefinedShape c h s') := by
  constructor
  · intro hbody hfix
    rw [go_loop, hbody]
    simp only [hfix, if_true]
  · intro hyp
    match fuel, hyp with
    | Nat.succ n, hyp =>
      rw [go_cycle] at hyp
      exact (term_shape_aux c g w n).1 _ _ _ _ _ _ _ hyp

/-- Concrete instances used by witnesses and counterexamples below. -/
def wNatClient : Client Nat :=
  { bot := 0, leq := fun a b => a ≤ b, join_with := Nat.max, join_loop_with := Nat.max,
    join_iter_with := Nat.max, widen_with := Nat.max, narrow_with := Nat.min,
    analyze_node := fun _ v => v, analyze_edge := fun _ _ v => v,
    extrapolate := fun _ _ a b => Nat.max a b,
    is_increasing_iterations_fixpoint := fun _ _ => true,
    refine := fun _ _ _ b => b,
    is_decreasing_iterations_fixpoint := fun _ _ => true }

def wGraph : Graph :=
  { entry := 0, preds := fun n => if n = 1 then [0] else [] }

def wWto : WtoData :=
  { components := [WtoComponent.cycle 1 []], nesting := fun _ => [] }

def wState : State Nat := { pre := fun _ => 0, post := fun _ => 0 }

/-- Witness for C5 at a concrete head-only cycle. -/
theorem claim_C5_witness :
    (go wNatClient wGraph wWto 2 (Frame.loop 1 [] IterationKind.increasing 5 0 wState) =
      go wNatClient wGraph wWto 1 (Frame.dec 1 [] 1 0
        (wNatClient.join_loop_with
          (joinIncoming wNatClient wGraph wWto 1 (headStep wNatClient 1 0 wState))
          (joinBack wNatClient wGraph wWto 1 (headStep wNatClient 1 0 wState)))
        (headStep wNatClient 1 0 wState)))
    ∧ RefinedShape wNatClient 1
        (setPre (headStep wNatClient 1 0 wState) 1 0) := by
  constructor
  · exact (claim_C5_phase_machine wNatClient wGraph wWto 1 1 [] 5 0 wState
      (headStep wNatClient 1 0 wState) wState).1 rfl rfl
  · exact (claim_C5_phase_machine wNatClient wGraph wWto 3 1 [] 5 0 wState
      wState (setPre (headStep wNatClient 1 0 wState) 1 0)).2 rfl

end IkosFixpoint

namespace IkosFixpoint

variable {V : Type}

mutual

theorem vertexNodes_sub : ∀ (comp : WtoComponent) (n : Nat),
    n ∈ vertexNodes comp → n ∈ compNodes comp
  | WtoComponent.vertex m, n, hn => by simpa [vertexNodes, compNodes] using hn
  | WtoComponent.cycle h body, n, hn => by
      simp only [vertexNodes] at hn
      simp only [compNodes, List.mem_cons]
      exact Or.inr (vertexNodesList_sub body n hn)

theorem vertexNodesList_sub : ∀ (cs : List WtoComponent) (n : Nat),
    n ∈ vertexNodesList cs → n ∈ listNodes cs
  | comp :: rest, n, hn => by
      simp only [vertexNodesList, List.mem_append] at hn
      simp only [listNodes, List.mem_append]
      exact hn.imp (vertexNodes_sub comp n) (vertexNodesList_sub rest n)

end

/-- All listed nodes have consistent tables: post is the transfer function of
the stored pre. -/
def VertexConsistent (c : Client V) (ns : List Nat) (s : State V) : Prop :=
  ∀ n ∈ ns, s.post n = c.analyze_node n (s.pre n)

theorem consistency_aux (c : Client V) (g : Graph) (w : WtoData) :
    ∀ fuel : Nat,
      (∀ comp s s', go c g w fuel (Frame.comp comp s) = some s' →
        (compNodes comp).Nodup → VertexConsistent c (vertexNodes comp) s')
      ∧ (∀ cs s s', go c g w fuel (Frame.comps cs s) = some s' →
        (listNodes cs).Nodup → VertexConsistent c (vertexNodesList cs) s')
      ∧ (∀ h body kind iteration pre s s',
        go c g w fuel (Frame.loop h body kind iteration pre s) = some s' →
        (h :: listNodes body).Nodup → VertexConsistent c (vertexNodesList body) s')
      ∧ (∀ h body iteration pre newPre s s',
        go c g w fuel (Frame.dec h body iteration pre newPre s) = some s' →
        (h :: listNodes body).Nodup → VertexConsistent c (vertexNodesList body) s →
        VertexConsistent c (vertexNodesList body) s') := by
  intro fuel
  induction fuel with
  | zero =>
    refine ⟨?_, ?_, ?_, ?_⟩ <;> intros <;> simp_all [go]
  | succ n ih =>
    refine ⟨?_, ?_, ?_, ?_⟩
    · -- single component
      intro comp s s' hgo hnd
      match comp with
      | WtoComponent.vertex k =>
        rw [go_vertex] at hgo
        cases hgo
        intro m hm
        simp only [vertexNodes, List.mem_singleton] at hm
        subst hm
        simp [visitVertex, upd]
      | WtoComponent.cycle h body =>
        rw [go_cycle] at hgo
        simp only [compNodes] at hnd
        exact ih.2.2.1 _ _ _ _ _ _ _ hgo hnd
    · -- component list
      intro cs s s' hgo hnd
      match cs with
      | [] =>
        intro m hm; simp [vertexNodesList] at hm
      | comp :: rest =>
        rw [go_cons] at hgo
        cases hfirst : go c g w n (Frame.comp comp s) with
        | none => rw [hfirst] at hgo; simp at hgo
        | some s1 =>
          rw [hfirst] at hgo; simp only at hgo
          simp only [listNodes, List.nodup_append] at hnd
          have hfirstC := ih.1 _ _ _ hfirst hnd.1
          have hrestC := ih.2.1 _ _ _ hgo hnd.2.1
          intro m hm
          simp only [vertexNodesList, List.mem_append] at hm
          cases hm with
          | inl hm =>
            have hmc : m ∈ compNodes comp := vertexNodes_sub comp m hm
            have hnot : m ∉ listNodes rest := fun hcon => hnd.2.2 hmc hcon
            have hfr := go_frame c g w n _ _ hgo m (by
              simpa [Frame.writes] using hnot)
            simp only [Frame.state] at hfr
            rw [hfr.1, hfr.2]
            exact hfirstC m hm
          | inr hm => exact hrestC m hm
    · -- loop pass
      intro h body kind iteration pre s s' hgo hnd
      rw [go_loop] at hgo
      cases hbody : go c g w n (Frame.comps body (headStep c h pre s)) with
      | none => rw [hbody] at hgo; simp at hgo
      | some s2 =>
        rw [hbody] at hgo; simp only at hgo
        have hndl : (listNodes body).Nodup := (List.nodup_cons.mp hnd).2
        have hbodyC := ih.2.1 _ _ _ hbody hndl
        cases kind with
        | increasing =>
          by_cases hfix : c.is_increasing_iterations_fixpoint pre
              (c.join_loop_with (joinIncoming c g w h s2) (joinBack c g w h s2)) = true
          · rw [if_pos hfix] at hgo
            exact ih.2.2.2 _ _ _ _ _ _ _ hgo hnd hbodyC
          · rw [if_neg hfix] at hgo
            exact ih.2.2.1 _ _ _ _ _ _ _ hgo hnd
        | decreasing => exact ih.2.2.2 _ _ _ _ _ _ _ hgo hnd hbodyC
    · -- decreasing tail
      intro h body iteration pre newPre s s' hgo hnd hs
      rw [go_dec] at hgo
      by_cases hfix : c.is_decreasing_iterations_fixpoint pre
          (c.refine h iteration pre newPre) = true
      · simp only [hfix, if_true] at hgo
        cases hgo
        intro m hm
        have hmh : m ≠ h := by
          intro hcon
          exact (List.nodup_cons.mp hnd).1
            (by rw [← hcon]; exact vertexNodesList_sub body m hm)
        simp only [setPre, upd, hmh, if_false, if_neg hmh]
        exact hs m hm
      · simp only [hfix, Bool.false_eq_true, if_false] at hgo
        exact ih.2.2.1 _ _ _ _ _ _ _ hgo hnd

/-- C1 (amended): upon successful termination of `run`, every node occurring
as a plain WTO vertex has `post(n) = node(n, pre(n))`; at a cycle head the
final decreasing iteration re-sets `pre` without re-running `node`, so the
equality is not guaranteed there (see the counterexample). -/
theorem claim_C1_amended_post_consistency (c : Client V) (g : Graph) (w : WtoData)
    (fuel : Nat) (init : V) (r : State V × List (ProcessEvent V))
    (hrun : run c g w fuel init = some r)
    (hnd : (listNodes w.components).Nodup) :
    ∀ n ∈ vertexNodesList w.components, r.1.post n = c.analyze_node n (r.1.pre n) := by
  simp only [run] at hrun
  cases hvc : visitComponents c g w fuel w.components
      (setPre { pre := fun _ => c.bot, post := fun _ => c.bot } g.entry init) with
  | none => rw [hvc] at hrun; simp at hrun
  | some s =>
    rw [hvc] at hrun; simp only at hrun
    cases hrun
    exact (consistency_aux c g w fuel).2.1 _ _ _ hvc hnd

/-- The counterexample client for C1: doubling transfer function,
incrementing edges, immediate phase transitions, `refine` keeping the new
candidate. -/
def cexC1Client : Client Nat :=
  { bot := 0, leq := fun a b => a ≤ b, join_with := Nat.max, join_loop_with := Nat.max,
    join_iter_with := Nat.max, widen_with := Nat.max, narrow_with := Nat.min,
    analyze_node := fun _ v => v + v, analyze_edge := fun _ _ v => v + 1,
    extrapolate := fun _ _ a b => Nat.max a b,
    is_increasing_iterations_fixpoint := fun _ _ => true,
    refine := fun _ _ _ b => b,
    is_decreasing_iterations_fixpoint := fun _ _ => true }

def cexGraph : Graph :=
  { entry := 0, preds := fun n => if n = 1 then [0, 2] else if n = 2 then [1] else [] }

def cexWto : WtoData :=
  { components := [WtoComponent.vertex 0, WtoComponent.cycle 1 [WtoComponent.vertex 2]],
    nesting := fun n => if n = 2 then [1] else [] }

/-- C1 does not hold as stated: after this run, the cycle head 1 ends with
`pre(1) = 7`, `post(1) = 2`, but `node(1, pre(1)) = 14 ≠ 2` — the narrowing
phase re-set the head's pre without re-running `analyze_node`. -/
theorem claim_C1_counterexample :
    (run cexC1Client cexGraph cexWto 9 0).map
      (fun r => (r.1.pre 1, r.1.post 1,
        decide (r.1.post 1 = cexC1Client.analyze_node 1 (r.1.pre 1)))) =
      some (7, 2, false) := by decide

/-- Witness for the amended C1 at the counterexample instance: the plain
vertices 0 and 2 do satisfy the post consistency there. -/
theorem claim_C1_amended_witness :
    (run cexC1Client cexGraph cexWto 9 0).map
      (fun r => (decide (r.1.post 0 = cexC1Client.analyze_node 0 (r.1.pre 0)),
        decide (r.1.post 2 = cexC1Client.analyze_node 2 (r.1.pre 2)))) =
      some (true, true) := by
  cases hr : run cexC1Client cexGraph cexWto 9 0 with
  | none =>
    have hsome : (run cexC1Client cexGraph cexWto 9 0).isSome = true := by decide
    rw [hr] at hsome; simp at hsome
  | some r =>
    have hc := claim_C1_amended_post_consistency cexC1Client cexGraph cexWto 9 0 r hr
      (by decide)
    have h0 := hc 0 (by decide)
    have h2 := hc 2 (by decide)
    simp [h0, h2]

end IkosFixpoint

namespace IkosFixpoint

variable {V : Type}

/-- A successful vertex visit is exactly `visitVertex`. -/
theorem go_vertex_inv (c : Client V) (g : Graph) (w : WtoData) {fuel : Nat} {n : Nat}
    {s s' : State V} (hgo : go c g w fuel (Frame.comp (WtoComponent.vertex n) s) = some s') :
    s' = visitVertex c g n s := by
  match fuel with
  | 0 => simp [go] at hgo
  | Nat.succ m => rw [go_vertex] at hgo; exact (Option.some.inj hgo).symm

/-- C2: upon successful termination of `run(init)`, if the entry occurs as the
first WTO component, is a plain vertex (not the head of a cycle), has no
predecessors and does not occur again later, then `pre(entry) = init`: the
caller-seeded value survives the whole run.  (When the entry is the head of a
cycle the narrowing phase may refine it; the claim excludes that case.) -/
theorem claim_C2_entry_pre (c : Client V) (g : Graph) (w : WtoData) (fuel : Nat)
    (init : V) (r : State V × List (ProcessEvent V)) (rest : List WtoComponent)
    (hshape : w.components = WtoComponent.vertex g.entry :: rest)
    (hpreds : g.preds g.entry = [])
    (hnotin : g.entry ∉ listNodes rest)
    (hrun : run c g w fuel init = some r) :
    r.1.pre g.entry = init := by
  simp only [run] at hrun
  cases hvc : visitComponents c g w fuel w.components
      (setPre { pre := fun _ => c.bot, post := fun _ => c.bot } g.entry init) with
  | none => rw [hvc] at hrun; simp at hrun
  | some s =>
    rw [hvc] at hrun; simp only at hrun
    cases hrun
    unfold visitComponents at hvc
    rw [hshape] at hvc
    match fuel, hvc with
    | Nat.succ m, hvc =>
      rw [go_cons] at hvc
      cases hfirst : go c g w m
          (Frame.comp (WtoComponent.vertex g.entry)
            (setPre { pre := fun _ => c.bot, post := fun _ => c.bot } g.entry init)) with
      | none => rw [hfirst] at hvc; simp at hvc
      | some s1 =>
        rw [hfirst] at hvc; simp only at hvc
        have hs1 := go_vertex_inv c g w hfirst
        have hs1pre : s1.pre g.entry = init := by
          rw [hs1]
          simp [visitVertex, hpreds, upd, setPre]
        have hfr := go_frame c g w m _ _ hvc g.entry (by
          simpa [Frame.writes] using hnotin)
        simp only [Frame.state] at hfr
        rw [hfr.1, hs1pre]

def wC2Wto : WtoData :=
  { components := [WtoComponent.vertex 0, WtoComponent.vertex 1],
    nesting := fun _ => [] }

/-- Witness for C2 on a two-vertex graph: the entry keeps its seed 42. -/
theorem claim_C2_witness :
    (run wNatClient wGraph wC2Wto 5 42).map (fun r => r.1.pre 0) = some 42 := by
  cases hr : run wNatClient wGraph wC2Wto 5 42 with
  | none =>
    have hsome : (run wNatClient wGraph wC2Wto 5 42).isSome = true := by decide
    rw [hr] at hsome; simp at hsome
  | some r =>
    have := claim_C2_entry_pre wNatClient wGraph wC2Wto 5 42 r
      [WtoComponent.vertex 1] rfl rfl (by decide) hr
    simpa [wGraph] using this

mutual

theorem processComponent_eq_bind (s : State V) : ∀ comp : WtoComponent,
    processComponent s comp = (compNodes comp).flatMap
      (fun n => [ProcessEvent.processPre n (s.pre n), ProcessEvent.processPost n (s.post n)])
  | WtoComponent.vertex n => by
      simp [processComponent, compNodes]
  | WtoComponent.cycle h body => by
      simp only [processComponent, compNodes, List.flatMap_cons]
      rw [processList_eq_bind s body]
      rfl

theorem processList_eq_bind (s : State V) : ∀ cs : List WtoComponent,
    processList s cs = (listNodes cs).flatMap
      (fun n => [ProcessEvent.processPre n (s.pre n), ProcessEvent.processPost n (s.post n)])
  | [] => by simp [processList, listNodes]
  | comp :: rest => by
      simp only [processList, listNodes, List.flatMap_append]
      rw [processComponent_eq_bind s comp, processList_eq_bind s rest]

end

/-- C9: a successful `run` first finishes the iteration driver, producing the
final tables `r.1`, and only then emits the post-processor events: for each
node in WTO pre-order (a cycle head before its body, body in WTO order),
`process_pre(n, pre(n))` immediately followed by `process_post(n, post(n))`,
all read from the final tables — a deterministic pre-order traversal of the
component tree. -/
theorem claim_C9_postprocessor (c : Client V) (g : Graph) (w : WtoData) (fuel : Nat)
    (init : V) (r : State V × List (ProcessEvent V))
    (hrun : run c g w fuel init = some r) :
    visitComponents c g w fuel w.components
      (setPre { pre := fun _ => c.bot, post := fun _ => c.bot } g.entry init) = some r.1
    ∧ r.2 = (listNodes w.components).flatMap
        (fun n => [ProcessEvent.processPre n (r.1.pre n),
          ProcessEvent.processPost n (r.1.post n)]) := by
  simp only [run] at hrun
  cases hvc : visitComponents c g w fuel w.components
      (setPre { pre := fun _ => c.bot, post := fun _ => c.bot } g.entry init) with
  | none => rw [hvc] at hrun; simp at hrun
  | some s =>
    rw [hvc] at hrun; simp only at hrun
    have hr' : (s, processList s w.components) = r := Option.some.inj hrun
    rw [← hr']
    exact ⟨rfl, processList_eq_bind s w.components⟩

/-- Witness for C9: concrete event trace on the two-vertex instance. -/
theorem claim_C9_witness :
    (run wNatClient wGraph wC2Wto 5 42).map
      (fun r => decide (r.2 = (listNodes wC2Wto.components).flatMap
        (fun n => [ProcessEvent.processPre n (r.1.pre n),
          ProcessEvent.processPost n (r.1.post n)]))) = some true := by
  cases hr : run wNatClient wGraph wC2Wto 5 42 with
  | none =>
    have hsome : (run wNatClient wGraph wC2Wto 5 42).isSome = true := by decide
    rw [hr] at hsome; simp at hsome
  | some r =>
    have := (claim_C9_postprocessor wNatClient wGraph wC2Wto 5 42 r hr).2
    simp [this]

end IkosFixpoint

namespace IkosFixpoint

variable {V : Type}

/-- The invariant tables (`std::unordered_map`) as association lists. -/
abbrev Table (V : Type) : Type := List (Nat × V)

/-- `table->find(node)`. -/
def table_find : Table V → Nat → Option V
  | [], _ => none
  | (m, v) :: rest, n => if m = n then some v else table_find rest n

/-- `InterleavedFwdFixpointIterator::set`: overwrite the entry if present,
otherwise emplace it. -/
def table_set : Table V → Nat → V → Table V
  | [], n, v => [(n, v)]
  | (m, u) :: rest, n, v =>
      if m = n then (n, v) :: rest else (m, u) :: table_set rest n v

/-- `InterleavedFwdFixpointIterator::get`: return the stored value, or emplace
a bottom entry and return it (the lazy insertion of a read miss). -/
def table_get (bot : V) (t : Table V) (n : Nat) : V × Table V :=
  match table_find t n with
  | some v => (v, t)
  | none => (bot, t ++ [(n, bot)])

/-- Logical content of a table: total map defaulting to bottom. -/
def content (bot : V) (t : Table V) (n : Nat) : V :=
  (table_find t n).getD bot

theorem table_find_append (t : Table V) (u : Table V) (n : Nat) :
    table_find (t ++ u) n =
      match table_find t n with
      | some v => some v
      | none => table_find u n := by
  induction t with
  | nil => rfl
  | cons p rest ih =>
    by_cases hp : p.1 = n
    · simp [table_find, hp]
    · simp [table_find, hp, ih]

theorem content_table_set (t : Table V) (bot v : V) (n m : Nat) :
    content bot (table_set t n v) m = if m = n then v else content bot t m := by
  induction t with
  | nil =>
    by_cases hm : m = n
    · subst hm; simp [table_set, content, table_find]
    · have hnm : ¬ n = m := fun h => hm h.symm
      simp [table_set, content, table_find, hm, hnm]
  | cons pu rest ih =>
    obtain ⟨a, u⟩ := pu
    by_cases ha : a = n
    · subst ha
      by_cases hm : m = a
      · subst hm; simp [table_set, content, table_find]
      · have ham : ¬ a = m := fun h => hm h.symm
        simp [table_set, content, table_find, hm, ham]
    · by_cases ham : a = m
      · subst ham
        have hmn : ¬ a = n := ha
        simp [table_set, content, table_find, ha, hmn]
      · unfold content at ih ⊢
        simp [table_set, table_find, ha, ham, ih]

/-- The driver state read off a pair of tables. -/
def stateOfTables (c : Client V) (tp tq : Table V) : State V :=
  { pre := content c.bot tp, post := content c.bot tq }

/-- `run` started from given table contents instead of empty tables (the
"pre(n)/post(n) was queried before run" scenario: queries may have lazily
materialized bottom entries in either table). -/
def runFromTables (c : Client V) (g : Graph) (w : WtoData) (fuel : Nat) (init : V)
    (tp tq : Table V) : Option (State V × List (ProcessEvent V)) :=
  match visitComponents c g w fuel w.components (setPre (stateOfTables c tp tq) g.entry init) with
  | none => none
  | some s => some (s, processList s w.components)

/-- C10: the tables behave as total maps defaulting to bottom.  A read returns
exactly the logical content; a read miss materializes a bottom entry, but this
insertion changes neither the content at any node (hence no later pre/post
query) nor the outcome of a subsequent `run`; and a write is the pointwise
update of the content.  Reads are therefore observationally pure. -/
theorem claim_C10_lazy_reads_pure (c : Client V) (g : Graph) (w : WtoData) :
    (∀ (t : Table V) (bot : V) n, (table_get bot t n).1 = content bot t n)
    ∧ (∀ (t : Table V) (bot : V) n, table_find t n = none →
        table_get bot t n = (bot, t ++ [(n, bot)]))
    ∧ (∀ (t : Table V) (bot : V) n m, content bot (table_get bot t n).2 m = content bot t m)
    ∧ (∀ (t : Table V) (bot v : V) n m,
        content bot (table_set t n v) m = if m = n then v else content bot t m)
    ∧ (∀ (tp tq : Table V) (fuel : Nat) (init : V) (n k : Nat),
        runFromTables c g w fuel init (table_get c.bot tp n).2 (table_get c.bot tq k).2 =
          runFromTables c g w fuel init tp tq) := by
  have hget1 : ∀ (t : Table V) (bot : V) n, (table_get bot t n).1 = content bot t n := by
    intro t bot n
    unfold table_get content
    cases table_find t n <;> rfl
  have hcontent : ∀ (t : Table V) (bot : V) n m,
      content bot (table_get bot t n).2 m = content bot t m := by
    intro t bot n m
    unfold table_get
    cases hf : table_find t n with
    | some v => rfl
    | none =>
      simp only [content, table_find_append]
      cases hm : table_find t m with
      | some u => rfl
      | none =>
        by_cases hmn : n = m
        · simp [table_find, hmn]
        · simp [table_find, hmn]
  refine ⟨hget1, ?_, hcontent, fun t bot v n m => content_table_set t bot v n m, ?_⟩
  · intro t bot n hf
    unfold table_get
    rw [hf]
  · intro tp tq fuel init n k
    unfold runFromTables
    have hst : stateOfTables c (table_get c.bot tp n).2 (table_get c.bot tq k).2 =
        stateOfTables c tp tq := by
      unfold stateOfTables
      have hp : content c.bot (table_get c.bot tp n).2 = content c.bot tp :=
        funext (fun m => hcontent tp c.bot n m)
      have hq : content c.bot (table_get c.bot tq k).2 = content c.bot tq :=
        funext (fun m => hcontent tq c.bot k m)
      rw [hp, hq]
    rw [hst]

end IkosFixpoint

namespace IkosFixpoint

/-- Witness for C10: a read miss on the empty table returns bottom and
materializes exactly one bottom entry. -/
theorem claim_C10_witness :
    table_get (0 : Nat) [] 5 = (0, [(5, 0)]) :=
  (claim_C10_lazy_reads_pure wNatClient wGraph wWto).2.1 [] 0 5 rfl

end IkosFixpoint

namespace IkosFixpoint

variable {V : Type}

/-- A client over the four-element chain `0 < 1 < 2 < 3` whose callbacks are
all monotone, with a lawful widening (an upper bound of the join) and a lawful
narrowing (between the meet and the first argument), under the default
fixpoint predicates. -/
def cexC8Client : Client (Fin 4) :=
  { bot := 0, leq := fun a b => decide (a ≤ b), join_with := max, join_loop_with := max,
    join_iter_with := max, widen_with := max, narrow_with := min,
    analyze_node := fun n => if n = 0 then ![0,0,2,2] else if n = 1 then ![0,0,0,2] else ![2,3,3,3],
    analyze_edge := fun p _ => if p = 0 then ![0,1,1,3] else if p = 2 then (fun _ => 1) else ![0,1,1,2],
    extrapolate := fun _ _ a b => max a (![0,2,3,3] (max a b)),
    is_increasing_iterations_fixpoint := fun before after => decide (after ≤ before),
    refine := fun _ _ a b => min a (![2,3,3,3] b),
    is_decreasing_iterations_fixpoint := fun before after => decide (before ≤ after) }

/-- C8 does not hold as stated: on the chain `Fin 4` with all client callbacks
monotone (transfer functions, edge abstractions, extrapolate and refine, with
`leq`/`join` the chain order and join), `init1 = 0 ⊑ 2 = init2`, both runs
converge, yet `pre1(1) = 2 ⋢ 1 = pre2(1)`: the smaller seed triggers one more
widening pass that overshoots, and narrowing does not recover it. -/
theorem claim_C8_counterexample :
    ((0 : Fin 4) ≤ 2)
    ∧ (∀ (n : Nat) (a b : Fin 4), a ≤ b →
        cexC8Client.analyze_node n a ≤ cexC8Client.analyze_node n b)
    ∧ (∀ (p q : Nat) (a b : Fin 4), a ≤ b →
        cexC8Client.analyze_edge p q a ≤ cexC8Client.analyze_edge p q b)
    ∧ (∀ (h i : Nat) (a b a' b' : Fin 4), a ≤ a' → b ≤ b' →
        cexC8Client.extrapolate h i a b ≤ cexC8Client.extrapolate h i a' b')
    ∧ (∀ (h i : Nat) (a b a' b' : Fin 4), a ≤ a' → b ≤ b' →
        cexC8Client.refine h i a b ≤ cexC8Client.refine h i a' b')
    ∧ (∀ (a b a' b' : Fin 4), a ≤ a' → b ≤ b' →
        cexC8Client.join_with a b ≤ cexC8Client.join_with a' b')
    ∧ (run cexC8Client cexGraph cexWto 30 0).map (fun r => r.1.pre 1) = some 2
    ∧ (run cexC8Client cexGraph cexWto 30 2).map (fun r => r.1.pre 1) = some 1
    ∧ ¬ ((2 : Fin 4) ≤ 1) := by
  refine ⟨by decide, ?_, ?_, ?_, ?_, ?_, by decide, by decide, by decide⟩
  · intro n a b
    unfold cexC8Client
    simp only
    split_ifs <;> (revert a b; decide)
  · intro p q a b
    unfold cexC8Client
    simp only
    split_ifs <;> (revert a b; decide)
  · intro h i a b a' b'
    unfold cexC8Client
    simp only
    revert a b a' b'; decide
  · intro h i a b a' b'
    unfold cexC8Client
    simp only
    revert a b a' b'; decide
  · intro a b a' b'
    unfold cexC8Client
    simp only
    revert a b a' b'; decide

/-- Whether a WTO consists of plain vertices only (no cycle component). -/
def isVertexList : List WtoComponent → Bool
  | [] => true
  | WtoComponent.vertex _ :: rest => isVertexList rest
  | WtoComponent.cycle _ _ :: _ => false

/-- The driver restricted to a vertex-only WTO is the plain fold of
`visitVertex`. -/
def vertexFold (c : Client V) (g : Graph) : List WtoComponent → State V → Option (State V)
  | [], s => some s
  | WtoComponent.vertex n :: rest, s => vertexFold c g rest (visitVertex c g n s)
  | WtoComponent.cycle _ _ :: _, _ => none

theorem go_vertexList (c : Client V) (g : Graph) (w : WtoData) :
    ∀ (cs : List WtoComponent) (fuel : Nat) (s r : State V),
      isVertexList cs = true → go c g w fuel (Frame.comps cs s) = some r →
      vertexFold c g cs s = some r := by
  intro cs
  induction cs with
  | nil =>
    intro fuel s r _ hgo
    match fuel, hgo with
    | Nat.succ m, hgo => rw [go_nil] at hgo; exact hgo
  | cons comp rest ih =>
    intro fuel s r hvl hgo
    match comp, hvl with
    | WtoComponent.vertex n, hvl =>
      match fuel, hgo with
      | Nat.succ m, hgo =>
        rw [go_cons] at hgo
        cases hfirst : go c g w m (Frame.comp (WtoComponent.vertex n) s) with
        | none => rw [hfirst] at hgo; simp at hgo
        | some s1 =>
          rw [hfirst] at hgo; simp only at hgo
          have hs1 := go_vertex_inv c g w hfirst
          subst hs1
          exact ih m _ r (by simpa [isVertexList] using hvl) hgo

/-- Pointwise table order induced by the client's `leq`. -/
def StateLeq (c : Client V) (s1 s2 : State V) : Prop :=
  (∀ n, c.leq (s1.pre n) (s2.pre n) = true) ∧ (∀ n, c.leq (s1.post n) (s2.post n) = true)

/-- Monotonicity hypotheses on the client callbacks used by the driver on a
vertex-only WTO. -/
structure MonotoneClient (c : Client V) : Prop where
  leq_refl : ∀ a, c.leq a a = true
  node_mono : ∀ (n : Nat) (a b : V), c.leq a b = true →
    c.leq (c.analyze_node n a) (c.analyze_node n b) = true
  edge_mono : ∀ (p q : Nat) (a b : V), c.leq a b = true →
    c.leq (c.analyze_edge p q a) (c.analyze_edge p q b) = true
  join_mono : ∀ (a b a' b' : V), c.leq a a' = true → c.leq b b' = true →
    c.leq (c.join_with a b) (c.join_with a' b') = true

theorem visitVertex_mono (c : Client V) (g : Graph) (hm : MonotoneClient c)
    (n : Nat) (s1 s2 : State V) (hs : StateLeq c s1 s2) :
    StateLeq c (visitVertex c g n s1) (visitVertex c g n s2) := by
  have hpre0 : c.leq (if n = g.entry then s1.pre n else c.bot)
      (if n = g.entry then s2.pre n else c.bot) = true := by
    by_cases he : n = g.entry
    · simp only [he, if_true]; exact hs.1 g.entry
    · simp only [he, if_false]; exact hm.leq_refl c.bot
  have hfold : ∀ (ps : List Nat) (a1 a2 : V), c.leq a1 a2 = true →
      c.leq (ps.foldl (fun acc p => c.join_with acc (c.analyze_edge p n (s1.post p))) a1)
        (ps.foldl (fun acc p => c.join_with acc (c.analyze_edge p n (s2.post p))) a2) = true := by
    intro ps
    induction ps with
    | nil => intro a1 a2 h; exact h
    | cons p rest ih =>
      intro a1 a2 h
      exact ih _ _ (hm.join_mono _ _ _ _ h (hm.edge_mono p n _ _ (hs.2 p)))
  have hpre := hfold (g.preds n) _ _ hpre0
  constructor
  · intro m
    by_cases hmn : m = n
    · subst hmn; simpa [visitVertex, upd] using hpre
    · simpa [visitVertex, upd, hmn] using hs.1 m
  · intro m
    by_cases hmn : m = n
    · subst hmn
      simpa [visitVertex, upd] using hm.node_mono _ _ _ hpre
    · simpa [visitVertex, upd, hmn] using hs.2 m

theorem vertexFold_mono (c : Client V) (g : Graph) (hm : MonotoneClient c) :
    ∀ (cs : List WtoComponent) (s1 s2 r1 r2 : State V),
      vertexFold c g cs s1 = some r1 → vertexFold c g cs s2 = some r2 →
      StateLeq c s1 s2 → StateLeq c r1 r2 := by
  intro cs
  induction cs with
  | nil =>
    intro s1 s2 r1 r2 h1 h2 hs
    cases h1; cases h2; exact hs
  | cons comp rest ih =>
    intro s1 s2 r1 r2 h1 h2 hs
    match comp, h1, h2 with
    | WtoComponent.vertex n, h1, h2 =>
      exact ih _ _ _ _ h1 h2 (visitVertex_mono c g hm n s1 s2 hs)

/-- C8 (amended): monotonicity in the initial value does hold for the
cycle-free part of the driver: on a WTO consisting of plain vertices only,
`init1 ⊑ init2` with monotone callbacks gives `pre1(n) ⊑ pre2(n)` (and
`post1(n) ⊑ post2(n)`) for every node after the two runs.  With a cycle the
property fails even for monotone, lawful hooks (see the counterexample). -/
theorem claim_C8_amended_monotonicity (c : Client V) (g : Graph) (w : WtoData)
    (fuel1 fuel2 : Nat) (init1 init2 : V)
    (r1 r2 : State V × List (ProcessEvent V))
    (hvl : isVertexList w.components = true)
    (hm : MonotoneClient c)
    (hinit : c.leq init1 init2 = true)
    (hbot : c.leq c.bot c.bot = true)
    (hrun1 : run c g w fuel1 init1 = some r1)
    (hrun2 : run c g w fuel2 init2 = some r2) :
    (∀ n, c.leq (r1.1.pre n) (r2.1.pre n) = true)
    ∧ (∀ n, c.leq (r1.1.post n) (r2.1.post n) = true) := by
  simp only [run] at hrun1 hrun2
  cases hvc1 : visitComponents c g w fuel1 w.components
      (setPre { pre := fun _ => c.bot, post := fun _ => c.bot } g.entry init1) with
  | none => rw [hvc1] at hrun1; simp at hrun1
  | some s1 =>
    rw [hvc1] at hrun1; simp only at hrun1
    cases hvc2 : visitComponents c g w fuel2 w.components
        (setPre { pre := fun _ => c.bot, post := fun _ => c.bot } g.entry init2) with
    | none => rw [hvc2] at hrun2; simp at hrun2
    | some s2 =>
      rw [hvc2] at hrun2; simp only at hrun2
      have hf1 := go_vertexList c g w w.components fuel1 _ _ hvl hvc1
      have hf2 := go_vertexList c g w w.components fuel2 _ _ hvl hvc2
      have hs0 : StateLeq c
          (setPre { pre := fun _ => c.bot, post := fun _ => c.bot } g.entry init1)
          (setPre { pre := fun _ => c.bot, post := fun _ => c.bot } g.entry init2) := by
        constructor
        · intro n
          by_cases hn : n = g.entry
          · simpa [setPre, upd, hn] using hinit
          · simpa [setPre, upd, hn] using hbot
        · intro n; exact hbot
      have hres := vertexFold_mono c g hm w.components _ _ _ _ hf1 hf2 hs0
      have e1 : (s1, processList s1 w.components) = r1 := Option.some.inj hrun1
      have e2 : (s2, processList s2 w.components) = r2 := Option.some.inj hrun2
      rw [← e1, ← e2]
      exact hres

/-- Witness for the amended C8 on a two-vertex WTO with the chain order on
naturals: seeds 1 ⊑ 3 give pointwise ordered invariants. -/
theorem claim_C8_amended_witness :
    (run wNatClient wGraph wC2Wto 5 1).map (fun r1 =>
      (run wNatClient wGraph wC2Wto 5 3).map (fun r2 =>
        wNatClient.leq (r1.1.pre 0) (r2.1.pre 0) && wNatClient.leq (r1.1.pre 1) (r2.1.pre 1)))
      = some (some true) := by
  cases hr1 : run wNatClient wGraph wC2Wto 5 1 with
  | none =>
    have hsome : (run wNatClient wGraph wC2Wto 5 1).isSome = true := by decide
    rw [hr1] at hsome; simp at hsome
  | some r1 =>
    cases hr2 : run wNatClient wGraph wC2Wto 5 3 with
    | none =>
      have hsome : (run wNatClient wGraph wC2Wto 5 3).isSome = true := by decide
      rw [hr2] at hsome; simp at hsome
    | some r2 =>
      have hmono : MonotoneClient wNatClient :=
        { leq_refl := fun a => by simp [wNatClient]
          node_mono := fun n a b h => h
          edge_mono := fun p q a b h => h
          join_mono := fun a b a' b' h1 h2 => by
            simp only [wNatClient, decide_eq_true_eq] at h1 h2 ⊢
            exact max_le_max h1 h2 }
      have := claim_C8_amended_monotonicity wNatClient wGraph wC2Wto 5 5 1 3 r1 r2
        (by decide) hmono (by decide) (by decide) hr1 hr2
      have h0 := this.1 0
      have h1 := this.1 1
      simp [h0, h1]

end IkosFixpoint

namespace IkosFixpoint

variable {V : Type}

/-- Lattice and hook conditions under which the driver terminates: `leq` is a
preorder, `join_with` an upper bound, the four hooks are the source defaults
with the widening replaced by the plain join (`extrapolate` joins), `refine`
never exceeds its first argument, ascent is well-founded (no infinite strictly
ascending chain) and descent is well-founded (no infinite strictly descending
chain). -/
structure TerminationClient (c : Client V) : Prop where
  leq_trans : ∀ a b d, c.leq a b = true → c.leq b d = true → c.leq a d = true
  join_le_left : ∀ a b, c.leq a (c.join_with a b) = true
  join_le_right : ∀ a b, c.leq b (c.join_with a b) = true
  extrapolate_join : ∀ h i a b, c.extrapolate h i a b = c.join_with a b
  inc_default : ∀ a b, c.is_increasing_iterations_fixpoint a b = c.leq b a
  refine_le : ∀ h i a b, c.leq (c.refine h i a b) a = true
  dec_default : ∀ a b, c.is_decreasing_iterations_fixpoint a b = c.leq a b
  asc_wf : WellFounded (fun b a : V => c.leq a b = true ∧ c.leq b a = false)
  desc_wf : WellFounded (fun b a : V => c.leq b a = true ∧ c.leq a b = false)

/-- Termination of the decreasing phase: each continuing pass strictly
descends (refine stays below its first argument and the default decreasing
test failed), so descent well-foundedness bounds the loop. -/
theorem decPhase_term (c : Client V) (g : Graph) (w : WtoData) (hc : TerminationClient c)
    (h : Nat) (body : List WtoComponent)
    (HB : ∀ s : State V, ∃ fuel s', go c g w fuel (Frame.comps body s) = some s') :
    ∀ (pre : V) (it : Nat) (np : V) (s : State V),
      ∃ fuel s', go c g w fuel (Frame.dec h body it pre np s) = some s' := by
  intro pre
  refine @WellFounded.induction V _ hc.desc_wf
    (fun x => ∀ (it : Nat) (np : V) (s : State V),
      ∃ fuel s', go c g w fuel (Frame.dec h body it x np s) = some s') pre ?_
  intro x IH it np s
  by_cases hdec : c.is_decreasing_iterations_fixpoint x (c.refine h it x np) = true
  · refine ⟨1, setPre s h (c.refine h it x np), ?_⟩
    rw [go_dec]
    simp only [hdec, if_true]
  · obtain ⟨f1, s2, hs2⟩ := HB (headStep c h (c.refine h it x np) s)
    have hdesc : c.leq (c.refine h it x np) x = true ∧ c.leq x (c.refine h it x np) = false := by
      refine ⟨hc.refine_le h it x np, ?_⟩
      rw [← hc.dec_default]
      exact Bool.not_eq_true _ ▸ Bool.of_not_eq_true hdec
    obtain ⟨f2, r, hr⟩ := IH (c.refine h it x np) hdesc (it + 1)
      (c.join_loop_with (joinIncoming c g w h s2) (joinBack c g w h s2)) s2
    refine ⟨max f1 f2 + 2, r, ?_⟩
    rw [go_dec, if_neg hdec, go_loop,
      go_mono_le c g w (Nat.le_max_left f1 f2) _ _ hs2]
    exact go_mono_le c g w (Nat.le_max_right f1 f2) _ _ hr

/-- Termination of the increasing phase: each continuing pass strictly
ascends (the candidate was not below the old pre and extrapolation is the
join), so ascent well-foundedness bounds the widening loop, after which the
decreasing phase terminates by `decPhase_term`. -/
theorem incPhase_term (c : Client V) (g : Graph) (w : WtoData) (hc : TerminationClient c)
    (h : Nat) (body : List WtoComponent)
    (HB : ∀ s : State V, ∃ fuel s', go c g w fuel (Frame.comps body s) = some s') :
    ∀ (pre : V) (it : Nat) (s : State V),
      ∃ fuel s', go c g w fuel
        (Frame.loop h body IterationKind.increasing it pre s) = some s' := by
  intro pre
  refine @WellFounded.induction V _ hc.asc_wf
    (fun x => ∀ (it : Nat) (s : State V),
      ∃ fuel s', go c g w fuel
        (Frame.loop h body IterationKind.increasing it x s) = some s') pre ?_
  intro x IH it s
  obtain ⟨f1, s2, hs2⟩ := HB (headStep c h x s)
  by_cases hfix : c.is_increasing_iterations_fixpoint x
      (c.join_loop_with (joinIncoming c g w h s2) (joinBack c g w h s2)) = true
  · obtain ⟨f2, r, hr⟩ := decPhase_term c g w hc h body HB x 1
      (c.join_loop_with (joinIncoming c g w h s2) (joinBack c g w h s2)) s2
    refine ⟨max f1 f2 + 1, r, ?_⟩
    rw [go_loop, go_mono_le c g w (Nat.le_max_left f1 f2) _ _ hs2]
    simp only [hfix, if_true]
    exact go_mono_le c g w (Nat.le_max_right f1 f2) _ _ hr
  · have hnp : c.leq (c.join_loop_with (joinIncoming c g w h s2) (joinBack c g w h s2)) x
        = false := by
      rw [← hc.inc_default]
      exact Bool.of_not_eq_true hfix
    have hasc : c.leq x (c.extrapolate h it x
          (c.join_loop_with (joinIncoming c g w h s2) (joinBack c g w h s2))) = true ∧
        c.leq (c.extrapolate h it x
          (c.join_loop_with (joinIncoming c g w h s2) (joinBack c g w h s2))) x = false := by
      rw [hc.extrapolate_join]
      refine ⟨hc.join_le_left _ _, ?_⟩
      by_cases habs : c.leq (c.join_with x
          (c.join_loop_with (joinIncoming c g w h s2) (joinBack c g w h s2))) x = true
      · have := hc.leq_trans _ _ _ (hc.join_le_right x _) habs
        rw [hnp] at this
        exact absurd this (by simp)
      · exact Bool.of_not_eq_true habs
    obtain ⟨f2, r, hr⟩ := IH _ hasc (it + 1) s2
    refine ⟨max f1 f2 + 1, r, ?_⟩
    rw [go_loop, go_mono_le c g w (Nat.le_max_left f1 f2) _ _ hs2]
    simp only [hfix, if_false]
    exact go_mono_le c g w (Nat.le_max_right f1 f2) _ _ hr

end IkosFixpoint

namespace IkosFixpoint

variable {V : Type}

mutual

/-- Every single component visit terminates with enough fuel, for a
terminating client. -/
theorem compTerm (c : Client V) (g : Graph) (w : WtoData) (hc : TerminationClient c) :
    ∀ (comp : WtoComponent) (s : State V),
      ∃ fuel s', go c g w fuel (Frame.comp comp s) = some s'
  | WtoComponent.vertex n, s => ⟨1, visitVertex c g n s, go_vertex c g w 0 n s⟩
  | WtoComponent.cycle h body, s => by
      have HB : ∀ s' : State V, ∃ fuel r, go c g w fuel (Frame.comps body s') = some r :=
        fun s' => listTerm c g w hc body s'
      obtain ⟨f, r, hr⟩ := incPhase_term c g w hc h body HB (joinIncoming c g w h s) 1 s
      exact ⟨f + 1, r, by rw [go_cycle]; exact hr⟩

/-- Every component-list visit terminates with enough fuel, for a terminating
client. -/
theorem listTerm (c : Client V) (g : Graph) (w : WtoData) (hc : TerminationClient c) :
    ∀ (cs : List WtoComponent) (s : State V),
      ∃ fuel s', go c g w fuel (Frame.comps cs s) = some s'
  | [], s => ⟨1, s, go_nil c g w 0 s⟩
  | comp :: rest, s => by
      obtain ⟨f1, s1, h1⟩ := compTerm c g w hc comp s
      obtain ⟨f2, r, h2⟩ := listTerm c g w hc rest s1
      refine ⟨max f1 f2 + 1, r, ?_⟩
      rw [go_cons, go_mono_le c g w (Nat.le_max_left f1 f2) _ _ h1]
      exact go_mono_le c g w (Nat.le_max_right f1 f2) _ _ h2

end

/-- Termination of `run` for terminating clients: some fuel suffices. -/
theorem run_terminates (c : Client V) (g : Graph) (w : WtoData) (hc : TerminationClient c)
    (init : V) : ∃ fuel r, run c g w fuel init = some r := by
  obtain ⟨fuel, s, hs⟩ := listTerm c g w hc w.components
    (setPre { pre := fun _ => c.bot, post := fun _ => c.bot } g.entry init)
  refine ⟨fuel, (s, processList s w.components), ?_⟩
  simp only [run, visitComponents, hs]

end IkosFixpoint

namespace IkosFixpoint

variable {V : Type}

/-- A single-vertex body visit costs three machine steps. -/
theorem go_body_single (c : Client V) (g : Graph) (w : WtoData) (n : Nat) (s : State V) :
    go c g w 3 (Frame.comps [WtoComponent.vertex n] s) = some (visitVertex c g n s) := rfl

/-- The unbounded-iteration family: on the chain of naturals with plain join
extrapolation and default predicates, the back edge caps its increment at `m`,
so the widening phase of the single cycle takes `m + 1` passes. -/
def famClient (m : Nat) : Client Nat :=
  { bot := 0, leq := fun a b => decide (a ≤ b), join_with := Nat.max, join_loop_with := Nat.max,
    join_iter_with := Nat.max, widen_with := Nat.max, narrow_with := Nat.min,
    analyze_node := fun _ v => v,
    analyze_edge := fun p _ v => if p = 2 then Nat.min (v + 1) m else v,
    extrapolate := fun _ _ a b => Nat.max a b,
    is_increasing_iterations_fixpoint := fun before after => decide (after ≤ before),
    refine := fun _ _ a b => Nat.min a b,
    is_decreasing_iterations_fixpoint := fun before after => decide (before ≤ after) }

theorem fam_loop_none (m : Nat) : ∀ (f : Nat) (it p : Nat) (s : State Nat),
    s.post 0 = 0 → p + f ≤ m →
    go (famClient m) cexGraph cexWto f
      (Frame.loop 1 [WtoComponent.vertex 2] IterationKind.increasing it p s) = none := by
  intro f
  induction f with
  | zero => intro it p s _ _; rfl
  | succ n ih =>
    intro it p s h0 hpf
    rw [go_loop]
    cases hbody : go (famClient m) cexGraph cexWto n
        (Frame.comps [WtoComponent.vertex 2]
          (headStep (famClient m) 1 p s)) with
    | none => rfl
    | some s2 =>
      have hs2 : s2 = visitVertex (famClient m) cexGraph 2
          (headStep (famClient m) 1 p s) := by
        have := go_vertexList (famClient m) cexGraph cexWto
          [WtoComponent.vertex 2] n _ _ rfl hbody
        simpa [vertexFold] using this.symm
      subst hs2
      have hp2 : s.post 0 = 0 := h0
      have hppm : p + 1 ≤ m := by omega
      have hin : joinIncoming (famClient m) cexGraph cexWto 1
          (visitVertex (famClient m) cexGraph 2 (headStep (famClient m) 1 p s)) = 0 := by
        simp [joinIncoming, cexGraph, cexWto, nestingGt, strictPrefixOf, famClient,
          visitVertex, headStep, upd, h0]
      have hback : joinBack (famClient m) cexGraph cexWto 1
          (visitVertex (famClient m) cexGraph 2 (headStep (famClient m) 1 p s)) = p + 1 := by
        simp [joinBack, cexGraph, cexWto, nestingGt, strictPrefixOf, famClient,
          visitVertex, headStep, upd]
        omega
      simp only [hin, hback]
      have hnp : (famClient m).join_loop_with 0 (p + 1) = p + 1 := by
        simp [famClient]
      rw [hnp]
      have hfix : (famClient m).is_increasing_iterations_fixpoint p (p + 1) = false := by
        simp [famClient]
      simp only [hfix, Bool.false_eq_true, if_false]
      have hext : (famClient m).extrapolate 1 it p (p + 1) = p + 1 := by
        simp [famClient]
      rw [hext]
      exact ih (it + 1) (p + 1) _ (by simp [visitVertex, headStep, upd, h0]) (by omega)

end IkosFixpoint


namespace IkosFixpoint

theorem fam_loop_some (m : Nat) : ∀ (k p it : Nat) (s : State Nat),
    s.post 0 = 0 → m = p + k →
    ∃ f r, go (famClient m) cexGraph cexWto f
      (Frame.loop 1 [WtoComponent.vertex 2] IterationKind.increasing it p s) = some r := by
  intro k
  induction k with
  | zero =>
    intro p it s h0 hm
    have hpm : p = m := by omega
    subst hpm
    refine ⟨5, setPre (visitVertex (famClient p) cexGraph 2 (headStep (famClient p) 1 p s))
      1 ((famClient p).refine 1 1 p p), ?_⟩
    rw [go_loop, go_mono_le (famClient p) cexGraph cexWto (by omega)
      _ _ (go_body_single (famClient p) cexGraph cexWto 2 (headStep (famClient p) 1 p s))]
    have hin : joinIncoming (famClient p) cexGraph cexWto 1
        (visitVertex (famClient p) cexGraph 2 (headStep (famClient p) 1 p s)) = 0 := by
      simp [joinIncoming, cexGraph, cexWto, nestingGt, strictPrefixOf, famClient,
        visitVertex, headStep, upd, h0]
    have hback : joinBack (famClient p) cexGraph cexWto 1
        (visitVertex (famClient p) cexGraph 2 (headStep (famClient p) 1 p s)) = p := by
      simp [joinBack, cexGraph, cexWto, nestingGt, strictPrefixOf, famClient,
        visitVertex, headStep, upd]
    simp only [hin, hback]
    have hnp : (famClient p).join_loop_with 0 p = p := by simp [famClient]
    rw [hnp]
    have hfix : (famClient p).is_increasing_iterations_fixpoint p p = true := by
      simp [famClient]
    simp only [hfix, if_true]
    rw [go_dec]
    have hdec : (famClient p).is_decreasing_iterations_fixpoint p
        ((famClient p).refine 1 1 p p) = true := by
      simp [famClient]
    simp only [hdec, if_true]
  | succ n ih =>
    intro p it s h0 hm
    obtain ⟨f, r, hloop⟩ := ih (p + 1) (it + 1)
      (visitVertex (famClient m) cexGraph 2 (headStep (famClient m) 1 p s))
      (by simp [visitVertex, headStep, upd, h0]) (by omega)
    refine ⟨max 3 f + 1, r, ?_⟩
    rw [go_loop, go_mono_le (famClient m) cexGraph cexWto (Nat.le_max_left 3 f)
      _ _ (go_body_single (famClient m) cexGraph cexWto 2 (headStep (famClient m) 1 p s))]
    have hin : joinIncoming (famClient m) cexGraph cexWto 1
        (visitVertex (famClient m) cexGraph 2 (headStep (famClient m) 1 p s)) = 0 := by
      simp [joinIncoming, cexGraph, cexWto, nestingGt, strictPrefixOf, famClient,
        visitVertex, headStep, upd, h0]
    have hback : joinBack (famClient m) cexGraph cexWto 1
        (visitVertex (famClient m) cexGraph 2 (headStep (famClient m) 1 p s)) = p + 1 := by
      simp [joinBack, cexGraph, cexWto, nestingGt, strictPrefixOf, famClient,
        visitVertex, headStep, upd]
      omega
    simp only [hin, hback]
    have hnp : (famClient m).join_loop_with 0 (p + 1) = p + 1 := by simp [famClient]
    rw [hnp]
    have hfix : (famClient m).is_increasing_iterations_fixpoint p (p + 1) = false := by
      simp [famClient]
    simp only [hfix, Bool.false_eq_true, if_false]
    have hext : (famClient m).extrapolate 1 it p (p + 1) = p + 1 := by simp [famClient]
    rw [hext]
    exact go_mono_le (famClient m) cexGraph cexWto (Nat.le_max_right 3 f) _ _ hloop

/-- The state after seeding and visiting the entry vertex of the family
instance. -/
def famEntryState (m : Nat) : State Nat :=
  visitVertex (famClient m) cexGraph 0
    (setPre { pre := fun _ => (famClient m).bot, post := fun _ => (famClient m).bot }
      cexGraph.entry 0)

theorem fam_run_none (m : Nat) : ∀ f : Nat, f ≤ m + 3 →
    run (famClient m) cexGraph cexWto f 0 = none := by
  intro f hf
  match f with
  | 0 => rfl
  | 1 => rfl
  | 2 => rfl
  | 3 => rfl
  | (q + 4) =>
    have hpost : (famEntryState m).post 0 = 0 := rfl
    have hseed : joinIncoming (famClient m) cexGraph cexWto 1 (famEntryState m) = 0 := rfl
    have hloop := fam_loop_none m (q + 1) 1 0 (famEntryState m) hpost (by omega)
    have hvc : go (famClient m) cexGraph cexWto (q + 4)
        (Frame.comps cexWto.components
          (setPre { pre := fun _ => (famClient m).bot, post := fun _ => (famClient m).bot }
            cexGraph.entry 0)) = none := by
      have hcomps : cexWto.components =
          [WtoComponent.vertex 0, WtoComponent.cycle 1 [WtoComponent.vertex 2]] := rfl
      rw [hcomps, go_cons, go_vertex]
      simp only
      rw [go_cons, go_cycle]
      have hfold : visitVertex (famClient m) cexGraph 0
          (setPre { pre := fun _ => (famClient m).bot, post := fun _ => (famClient m).bot }
            cexGraph.entry 0) = famEntryState m := rfl
      rw [hfold]
      have hseed' : go (famClient m) cexGraph cexWto (q + 1)
          (Frame.loop 1 [WtoComponent.vertex 2] IterationKind.increasing 1
            (joinIncoming (famClient m) cexGraph cexWto 1 (famEntryState m))
            (famEntryState m)) = none := by
        rw [hseed]; exact hloop
      rw [hseed']
    simp only [run, visitComponents]
    rw [hvc]

theorem fam_run_some (m : Nat) :
    ∃ f r, run (famClient m) cexGraph cexWto f 0 = some r := by
  have hpost : (famEntryState m).post 0 = 0 := rfl
  obtain ⟨f, r, hloop⟩ := fam_loop_some m m 0 1 (famEntryState m) hpost (by omega)
  have hseed : joinIncoming (famClient m) cexGraph cexWto 1 (famEntryState m) = 0 := rfl
  refine ⟨f + 3, (r, processList r cexWto.components), ?_⟩
  have hvc : go (famClient m) cexGraph cexWto (f + 3)
      (Frame.comps cexWto.components
        (setPre { pre := fun _ => (famClient m).bot, post := fun _ => (famClient m).bot }
          cexGraph.entry 0)) = some r := by
    have hcomps : cexWto.components =
        [WtoComponent.vertex 0, WtoComponent.cycle 1 [WtoComponent.vertex 2]] := rfl
    rw [hcomps, go_cons, go_vertex]
    simp only
    rw [go_cons, go_cycle]
    have hfold : visitVertex (famClient m) cexGraph 0
        (setPre { pre := fun _ => (famClient m).bot, post := fun _ => (famClient m).bot }
          cexGraph.entry 0) = famEntryState m := rfl
    rw [hfold]
    have hseed' : go (famClient m) cexGraph cexWto f
        (Frame.loop 1 [WtoComponent.vertex 2] IterationKind.increasing 1
          (joinIncoming (famClient m) cexGraph cexWto 1 (famEntryState m))
          (famEntryState m)) = some r := by
      rw [hseed]
      exact hloop
    rw [hseed']
    exact go_nil (famClient m) cexGraph cexWto f r
  simp only [run, visitComponents]
  rw [hvc]

end IkosFixpoint

namespace IkosFixpoint

/-- C7 counterexample client: the finite chain `Fin 3` (no infinite ascending
chain), monotone transfer functions, all four hooks at their source defaults,
and a widening that is the identity on its receiver
(`widen_with` leaves the first argument unchanged). -/
def cexC7Client : Client (Fin 3) :=
  { bot := 0, leq := fun a b => decide (a ≤ b), join_with := max, join_loop_with := max,
    join_iter_with := max, widen_with := fun a _ => a, narrow_with := min,
    analyze_node := fun _ v => v,
    analyze_edge := fun p _ v => if p = 2 then ![1, 2, 2] v else v,
    extrapolate := fun _ i a b => if i ≤ 1 then max a b else a,
    is_increasing_iterations_fixpoint := fun before after => decide (after ≤ before),
    refine := fun _ _ a b => min a b,
    is_decreasing_iterations_fixpoint := fun before after => decide (before ≤ after) }

theorem c7_loop_none : ∀ (f it : Nat) (s : State (Fin 3)), s.post 0 = 0 → 2 ≤ it →
    go cexC7Client cexGraph cexWto f
      (Frame.loop 1 [WtoComponent.vertex 2] IterationKind.increasing it 1 s) = none := by
  intro f
  induction f with
  | zero => intro it s _ _; rfl
  | succ n ih =>
    intro it s h0 hit
    rw [go_loop]
    cases hbody : go cexC7Client cexGraph cexWto n
        (Frame.comps [WtoComponent.vertex 2] (headStep cexC7Client 1 1 s)) with
    | none => rfl
    | some s2 =>
      have hs2 : s2 = visitVertex cexC7Client cexGraph 2 (headStep cexC7Client 1 1 s) := by
        have := go_vertexList cexC7Client cexGraph cexWto
          [WtoComponent.vertex 2] n _ _ rfl hbody
        simpa [vertexFold] using this.symm
      subst hs2
      have hin : joinIncoming cexC7Client cexGraph cexWto 1
          (visitVertex cexC7Client cexGraph 2 (headStep cexC7Client 1 1 s)) = 0 := by
        simp [joinIncoming, cexGraph, cexWto, nestingGt, strictPrefixOf, cexC7Client,
          visitVertex, headStep, upd, h0]
      have hback : joinBack cexC7Client cexGraph cexWto 1
          (visitVertex cexC7Client cexGraph 2 (headStep cexC7Client 1 1 s)) = 2 := by
        simp [joinBack, cexGraph, cexWto, nestingGt, strictPrefixOf, cexC7Client,
          visitVertex, headStep, upd]
      simp only [hin, hback]
      have hnp : cexC7Client.join_loop_with 0 2 = 2 := by decide
      rw [hnp]
      have hfix : cexC7Client.is_increasing_iterations_fixpoint 1 2 = false := by decide
      simp only [hfix, Bool.false_eq_true, if_false]
      have hext : cexC7Client.extrapolate 1 it 1 2 = 1 := by
        have hit1 : ¬ it ≤ 1 := by omega
        simp [cexC7Client, hit1]
      rw [hext]
      exact ih (it + 1) _ (by simp [visitVertex, headStep, upd, h0]) (by omega)

theorem c7_first_pass_none : ∀ (f : Nat) (s : State (Fin 3)), s.post 0 = 0 →
    go cexC7Client cexGraph cexWto f
      (Frame.loop 1 [WtoComponent.vertex 2] IterationKind.increasing 1 0 s) = none := by
  intro f s h0
  match f with
  | 0 => rfl
  | Nat.succ n =>
    rw [go_loop]
    cases hbody : go cexC7Client cexGraph cexWto n
        (Frame.comps [WtoComponent.vertex 2] (headStep cexC7Client 1 0 s)) with
    | none => rfl
    | some s2 =>
      have hs2 : s2 = visitVertex cexC7Client cexGraph 2 (headStep cexC7Client 1 0 s) := by
        have := go_vertexList cexC7Client cexGraph cexWto
          [WtoComponent.vertex 2] n _ _ rfl hbody
        simpa [vertexFold] using this.symm
      subst hs2
      have hin : joinIncoming cexC7Client cexGraph cexWto 1
          (visitVertex cexC7Client cexGraph 2 (headStep cexC7Client 1 0 s)) = 0 := by
        simp [joinIncoming, cexGraph, cexWto, nestingGt, strictPrefixOf, cexC7Client,
          visitVertex, headStep, upd, h0]
      have hback : joinBack cexC7Client cexGraph cexWto 1
          (visitVertex cexC7Client cexGraph 2 (headStep cexC7Client 1 0 s)) = 1 := by
        simp [joinBack, cexGraph, cexWto, nestingGt, strictPrefixOf, cexC7Client,
          visitVertex, headStep, upd]
      simp only [hin, hback]
      have hnp : cexC7Client.join_loop_with 0 1 = 1 := by decide
      rw [hnp]
      have hfix : cexC7Client.is_increasing_iterations_fixpoint 0 1 = false := by decide
      simp only [hfix, Bool.false_eq_true, if_false]
      have hext : cexC7Client.extrapolate 1 1 0 1 = 1 := by decide
      rw [hext]
      exact c7_loop_none n 2 _ (by simp [visitVertex, headStep, upd, h0]) (by omega)

/-- The state after seeding and visiting the entry vertex of the C7
counterexample instance. -/
def c7EntryState : State (Fin 3) :=
  visitVertex cexC7Client cexGraph 0
    (setPre { pre := fun _ => cexC7Client.bot, post := fun _ => cexC7Client.bot }
      cexGraph.entry 0)

theorem c7_run_none : ∀ f : Nat, run cexC7Client cexGraph cexWto f 0 = none := by
  intro f
  match f with
  | 0 => rfl
  | 1 => rfl
  | 2 => rfl
  | 3 => rfl
  | (q + 4) =>
    have hpost : c7EntryState.post 0 = 0 := rfl
    have hseed : joinIncoming cexC7Client cexGraph cexWto 1 c7EntryState = 0 := rfl
    have hloop := c7_first_pass_none (q + 1) c7EntryState hpost
    have hvc : go cexC7Client cexGraph cexWto (q + 4)
        (Frame.comps cexWto.components
          (setPre { pre := fun _ => cexC7Client.bot, post := fun _ => cexC7Client.bot }
            cexGraph.entry 0)) = none := by
      have hcomps : cexWto.components =
          [WtoComponent.vertex 0, WtoComponent.cycle 1 [WtoComponent.vertex 2]] := rfl
      rw [hcomps, go_cons, go_vertex]
      simp only
      rw [go_cons, go_cycle]
      have hfold : visitVertex cexC7Client cexGraph 0
          (setPre { pre := fun _ => cexC7Client.bot, post := fun _ => cexC7Client.bot }
            cexGraph.entry 0) = c7EntryState := rfl
      rw [hfold]
      have hseed' : go cexC7Client cexGraph cexWto (q + 1)
          (Frame.loop 1 [WtoComponent.vertex 2] IterationKind.increasing 1
            (joinIncoming cexC7Client cexGraph cexWto 1 c7EntryState) c7EntryState) = none := by
        rw [hseed]; exact hloop
      rw [hseed']
    simp only [run, visitComponents]
    rw [hvc]

end IkosFixpoint

namespace IkosFixpoint

/-- C7 does not hold as stated: on the finite chain `Fin 3` (whose strict
ascent is well-founded, i.e. no infinite ascending chain), with monotone
transfer functions, all four hooks at their source defaults and a widening
that is the identity (`widen_with a b = a`), `run()` never terminates: the
candidate stays strictly above the frozen `pre` forever. -/
theorem claim_C7_counterexample :
    (∀ a b : Fin 3, cexC7Client.widen_with a b = a)
    ∧ (∀ h i : Nat, ∀ a b : Fin 3,
        cexC7Client.extrapolate h i a b = defaultExtrapolate cexC7Client h i a b)
    ∧ (∀ a b : Fin 3, cexC7Client.is_increasing_iterations_fixpoint a b =
        defaultIsIncreasingFixpoint cexC7Client a b)
    ∧ (∀ h i : Nat, ∀ a b : Fin 3,
        cexC7Client.refine h i a b = defaultRefine cexC7Client h i a b)
    ∧ (∀ a b : Fin 3, cexC7Client.is_decreasing_iterations_fixpoint a b =
        defaultIsDecreasingFixpoint cexC7Client a b)
    ∧ (∀ (n : Nat) (a b : Fin 3), a ≤ b →
        cexC7Client.analyze_node n a ≤ cexC7Client.analyze_node n b)
    ∧ (∀ (p q : Nat) (a b : Fin 3), a ≤ b →
        cexC7Client.analyze_edge p q a ≤ cexC7Client.analyze_edge p q b)
    ∧ WellFounded (fun b a : Fin 3 =>
        cexC7Client.leq a b = true ∧ cexC7Client.leq b a = false)
    ∧ (∀ fuel : Nat, run cexC7Client cexGraph cexWto fuel 0 = none) := by
  refine ⟨fun a b => rfl, fun h i a b => rfl, fun a b => rfl, fun h i a b => rfl,
    fun a b => rfl, ?_, ?_, ?_, c7_run_none⟩
  · exact fun n a b h => h
  · intro p q a b
    unfold cexC7Client
    simp only
    split_ifs <;> (revert a b; decide)
  · refine Subrelation.wf ?_ (InvImage.wf (fun x : Fin 3 => 2 - x.val) Nat.lt_wfRel.wf)
    intro b a hba
    obtain ⟨h1, h2⟩ := hba
    simp only [cexC7Client, decide_eq_true_eq, decide_eq_false_iff_not] at h1 h2
    have hv1 : a.val ≤ b.val := h1
    have hv2 : ¬ b.val ≤ a.val := h2
    have hb3 : b.val < 3 := b.isLt
    show 2 - b.val < 2 - a.val
    omega

/-- The trivial one-point client used to witness the amended C7. -/
def trivClient : Client (Fin 1) :=
  { bot := 0, leq := fun _ _ => true, join_with := fun a _ => a, join_loop_with := fun a _ => a,
    join_iter_with := fun a _ => a, widen_with := fun a _ => a, narrow_with := fun a _ => a,
    analyze_node := fun _ v => v, analyze_edge := fun _ _ v => v,
    extrapolate := fun _ _ a _ => a,
    is_increasing_iterations_fixpoint := fun _ _ => true,
    refine := fun _ _ a _ => a,
    is_decreasing_iterations_fixpoint := fun _ _ => true }

/-- C7 (amended): if extrapolation is the plain join (an upper-bound widening
with no extrapolation beyond the join), the fixpoint predicates are the
source defaults, `refine` stays below its first argument, and both strict
ascent and strict descent are well-founded, then `run()` terminates, for every
CFG and WTO; moreover the driver imposes no implicit iteration cap: for every
bound `n` there is a client (the capped-counter family) on which `n` machine
steps are not enough, yet the run still converges with more fuel. -/
theorem claim_C7_amended_termination :
    (∀ (W : Type) (c : Client W) (g : Graph) (w : WtoData) (init : W),
      TerminationClient c → ∃ fuel r, run c g w fuel init = some r)
    ∧ (∀ n : Nat,
        run (famClient n) cexGraph cexWto n 0 = none
        ∧ ∃ fuel r, run (famClient n) cexGraph cexWto fuel 0 = some r) := by
  constructor
  · intro W c g w init hc
    exact run_terminates c g w hc init
  · intro n
    exact ⟨fam_run_none n n (by omega), fam_run_some n⟩

theorem trivClient_terminating : TerminationClient trivClient := by
  refine ⟨?_, ?_, ?_, ?_, ?_, ?_, ?_, ?_, ?_⟩
  · intro a b d _ _; rfl
  · intro a b; rfl
  · intro a b; rfl
  · intro h i a b; rfl
  · intro a b; rfl
  · intro h i a b; rfl
  · intro a b; rfl
  · constructor
    intro a
    constructor
    intro y hy
    exact absurd hy.2 (by simp [trivClient])
  · constructor
    intro a
    constructor
    intro y hy
    exact absurd hy.2 (by simp [trivClient])

/-- Witness for the amended C7: the one-point client terminates on a cycle
WTO, and the family instance at bound 2 indeed needs more than 2 steps. -/
theorem claim_C7_amended_witness :
    (∃ fuel r, run trivClient wGraph wWto fuel 0 = some r)
    ∧ run (famClient 2) cexGraph cexWto 2 0 = none :=
  ⟨claim_C7_amended_termination.1 (Fin 1) trivClient wGraph wWto 0 trivClient_terminating,
   (claim_C7_amended_termination.2 2).1⟩

end IkosFixpoint
